import Mathlib

/-!
# Verification of littleline (src/littleline.c)

Shallow embedding of the littleline single-line editor.  Bytes are `Nat`
(values 0..255 in reachable states), C strings are `List Nat` terminated
implicitly (reading at or past the end yields the terminator 0), and the C
`int` cursor is `Int`.  The companion modules `buffer.c`, `history.c` and
`fsm.c` are not part of the sources; their operations are modelled from the
spec (sections 3, 4.1, 4.2, 4.3) and marked as such.

The renderer and the `\xNN` escape digits follow the source compiled with a
signed `char` (the unix/termios target, e.g. x86 Linux): `*it >> 4` is an
arithmetic shift of the sign-extended byte, modelled with `Int.fdiv`.
-/

/-- Byte fetched by `s[i]` on a C string: the terminator 0 at or past the end,
the element otherwise.  Negative indices (which the C code never dereferences
on the states our theorems quantify over) also read as 0. -/
def byteAt (l : List Nat) (i : Int) : Nat :=
  if i < 0 then 0 else l.getD i.toNat 0

/-- Model of `strlen`: number of bytes before the first NUL. -/
def cstrlen (l : List Nat) : Nat :=
  (l.takeWhile (fun b => b != 0)).length

/-- A UTF-8 continuation byte: top bits `10`, i.e. `(c & 0xC0) == 0x80`. -/
def isCont (b : Nat) : Bool := b &&& 0xC0 == 0x80

/-- Encoded length selected by the byte-class ladder that both
`ll_delete_char` and `reprint_line` use: ASCII 1, `0xC0`-pattern 2,
`0xE0`-pattern 3, `0xF0`-pattern 4, `0xF8`-pattern 5, and 0 when no branch
of the ladder matches (continuation bytes and `0xFC..0xFF`). -/
def encLen (b : Nat) : Nat :=
  if b &&& 0x80 = 0 then 1
  else if b &&& 0xE0 = 0xC0 then 2
  else if b &&& 0xF0 = 0xE0 then 3
  else if b &&& 0xF8 = 0xF0 then 4
  else if b &&& 0xFC = 0xF8 then 5
  else 0

/-- Model of `isalnum` on a byte: ASCII classification, non-ASCII bytes (passed to the
C function as negative `char` values) are non-alphanumeric. -/
def llIsAlnum (b : Nat) : Bool :=
  (48 ≤ b && b ≤ 57) || (65 ≤ b && b ≤ 90) || (97 ≤ b && b ≤ 122)

/-- Well-formed UTF-8 in the source's 1..5 byte model: the list splits into
codepoints, each a ladder-recognised lead followed by `encLen - 1`
continuation bytes. -/
def wfUtf8 : List Nat → Bool
  | [] => true
  | b :: rest =>
    let n := encLen b
    if n = 0 then false
    else
      ((rest.take (n - 1)).length == n - 1 && (rest.take (n - 1)).all isCont)
        && wfUtf8 (rest.drop (n - 1))
termination_by l => l.length
decreasing_by
  simp only [List.length_cons, List.length_drop]
  omega

/-- The sign-extended value of a byte read through a (signed) `char`. -/
def signedChar (b : Nat) : Int :=
  if b < 128 then (b : Int) else (b : Int) - 256

/-- First escape digit of the renderer's bad-UTF-8 branch:
`(unsigned char)('0' + (*it >> 4))` with `*it` a signed char, the shift
arithmetic (floor division by 16). -/
def escHi (b : Nat) : Nat :=
  ((48 + (signedChar b).fdiv 16) % 256).toNat

/-- Second escape digit: `(unsigned char)('0' + (*it & 0xF))`; masking the
sign-extended (two's complement) value with `0xF` is reduction mod 16,
written with `Int.emod`. -/
def escLo (b : Nat) : Nat :=
  ((48 + (signedChar b).emod 16) % 256).toNat

/-- The editing commands of `littleline.c`, one constructor per `ll_*`
command function. -/
inductive LLCmd where
  | beginning_of_line
  | backward_char
  | terminate
  | end_of_file
  | end_of_line
  | forward_char
  | backward_delete_char
  | accept_line
  | forward_kill_line
  | forward_kill_word
  | next_history
  | previous_history
  | backward_kill_line
  | verbatim
  | backward_kill_word
  | yank
  | backward_word
  | forward_word
  | delete_char
  | beginning_of_history
  | end_of_history
deriving DecidableEq, Repr

/-- The `struct ll_context` fields the commands touch.  `viewing` captures
which byte string the `current` pointer aliases: `none` for `buffer.str`,
`some i` for history entry `i` (the pointer identity that `pop_line`'s
`cl.current != cl.buffer.str` test observes). -/
structure LLState where
  buffer : List Nat
  clipboard : List Nat
  cursor : Int
  fmt_cursor : Nat
  fmt_len : Nat
  focus : Nat
  viewing : Option Nat
  history : List (List Nat)
  histMax : Nat
  lastCommand : Option LLCmd
deriving DecidableEq, Repr

/-- The byte string `cl.current` points at. -/
def LLState.current (s : LLState) : List Nat :=
  match s.viewing with
  | none => s.buffer
  | some i => s.history.getD i []

/-- Modelled from the spec (§4.1): `ll_buf_insert` — splice `xs` in at byte
offset `off` (`buffer.c` is not under src/). -/
def listInsert (l : List Nat) (off : Nat) (xs : List Nat) : List Nat :=
  l.take off ++ xs ++ l.drop off

/-- Modelled from the spec (§4.1): `ll_buf_erase` — remove `cnt` bytes at
offset `off` (`buffer.c` is not under src/). -/
def listErase (l : List Nat) (off cnt : Nat) : List Nat :=
  l.take off ++ l.drop (off + cnt)

/-- Modelled from the spec (§4.3, §3): `ll_history_push` — drop a push equal
to the most recent entry, else append and evict the oldest entry beyond
capacity (`history.c` is not under src/). -/
def ll_history_push (h : List (List Nat)) (hmax : Nat) (e : List Nat) : List (List Nat) :=
  if h.getLast? = some e then h
  else
    let h' := h ++ [e]
    if hmax < h'.length then h'.tail else h'

/-- Function `pop_line`: copy-on-write from a viewed history entry into the buffer
(`ll_buf_assign(&buffer, current, strlen(current))`), repoint `current` at
the buffer and reset `focus`; no-op when `current` already is the buffer. -/
def pop_line (s : LLState) : LLState :=
  match s.viewing with
  | none => s
  | some i =>
    let cur := s.history.getD i []
    { s with buffer := cur.take (cstrlen cur), viewing := none,
             focus := s.history.length }

/-- Function `insert_str`: pop, splice at the cursor, advance the cursor. -/
def insert_str (s : LLState) (str : List Nat) : LLState :=
  let s1 := pop_line s
  { s1 with buffer := listInsert s1.buffer s1.cursor.toNat str,
            viewing := none, cursor := s1.cursor + str.length }

/-- Function `insert_char`: pop, insert one byte at the cursor, advance the cursor. -/
def insert_char (s : LLState) (c : Nat) : LLState :=
  let s1 := pop_line s
  { s1 with buffer := listInsert s1.buffer s1.cursor.toNat [c],
            viewing := none, cursor := s1.cursor + 1 }

/-- The `do --cursor; while (continuation)` scan of `ll_backward_char`,
starting at the already-decremented position. -/
def moveBack (l : List Nat) (p : Int) : Int :=
  if h : isCont (byteAt l p) = true then moveBack l (p - 1) else p
termination_by (p + 1).toNat
decreasing_by
  have hp : 0 ≤ p := by
    by_contra hneg
    push_neg at hneg
    simp [byteAt, if_pos hneg, isCont] at h
  omega

/-- The `do ++cursor; while (continuation)` scan of `ll_forward_char`. -/
def moveFwd (l : List Nat) (p : Int) : Int :=
  if h : isCont (byteAt l p) = true then moveFwd l (p + 1) else p
termination_by ((l.length : Int) - p).toNat
decreasing_by
  have hb : byteAt l p ≠ 0 := by
    intro h0
    rw [h0] at h
    simp [isCont] at h
  have hp : 0 ≤ p := by
    by_contra hneg
    push_neg at hneg
    simp [byteAt, if_pos hneg] at hb
  have hlt : p.toNat < l.length := by
    by_contra hge
    push_neg at hge
    have hnone : l[p.toNat]? = none := List.getElem?_eq_none hge
    simp [byteAt, not_lt.mpr hp, List.getD, hnone] at hb
  omega

/-- Loop `while (cursor >= 0 && !isalnum(current[cursor])) --cursor;` -/
def skipNonAlnumBack (l : List Nat) (p : Int) : Int :=
  if h : 0 ≤ p ∧ llIsAlnum (byteAt l p) = false then skipNonAlnumBack l (p - 1) else p
termination_by (p + 1).toNat
decreasing_by omega

/-- Loop `while (cursor >= 0 && isalnum(current[cursor])) --cursor;` -/
def skipAlnumBack (l : List Nat) (p : Int) : Int :=
  if h : 0 ≤ p ∧ llIsAlnum (byteAt l p) = true then skipAlnumBack l (p - 1) else p
termination_by (p + 1).toNat
decreasing_by omega

/-- Loop `while (current[cursor] != 0 && !isalnum(current[cursor])) ++cursor;` -/
def skipNonAlnumFwd (l : List Nat) (p : Int) : Int :=
  if h : byteAt l p ≠ 0 ∧ llIsAlnum (byteAt l p) = false then skipNonAlnumFwd l (p + 1) else p
termination_by ((l.length : Int) - p).toNat
decreasing_by
  have hp : 0 ≤ p := by
    by_contra hneg
    push_neg at hneg
    exact h.1 (by simp [byteAt, if_pos hneg])
  have hlt : p.toNat < l.length := by
    by_contra hge
    push_neg at hge
    have hnone : l[p.toNat]? = none := List.getElem?_eq_none hge
    exact h.1 (by simp [byteAt, not_lt.mpr hp, List.getD, hnone])
  omega

/-- Loop `while (current[cursor] != 0 && isalnum(current[cursor])) ++cursor;` -/
def skipAlnumFwd (l : List Nat) (p : Int) : Int :=
  if h : byteAt l p ≠ 0 ∧ llIsAlnum (byteAt l p) = true then skipAlnumFwd l (p + 1) else p
termination_by ((l.length : Int) - p).toNat
decreasing_by
  have hp : 0 ≤ p := by
    by_contra hneg
    push_neg at hneg
    exact h.1 (by simp [byteAt, if_pos hneg])
  have hlt : p.toNat < l.length := by
    by_contra hge
    push_neg at hge
    have hnone : l[p.toNat]? = none := List.getElem?_eq_none hge
    exact h.1 (by simp [byteAt, not_lt.mpr hp, List.getD, hnone])
  omega

/-- Command `ll_backward_char`: refuse at column 0, else step back one codepoint,
skipping continuation bytes. -/
def ll_backward_char (s : LLState) : Int × LLState :=
  if s.cursor = 0 then (-1, s)
  else (0, { s with cursor := moveBack s.current (s.cursor - 1) })

/-- Command `ll_forward_char`: refuse at end of string, else step forward one
codepoint, skipping continuation bytes. -/
def ll_forward_char (s : LLState) : Int × LLState :=
  if byteAt s.current s.cursor = 0 then (-1, s)
  else (0, { s with cursor := moveFwd s.current (s.cursor + 1) })

/-- Command `ll_backward_word`: refuse at column 0, else `--cursor`, skip
non-alphanumerics then alphanumerics backward, `++cursor`. -/
def ll_backward_word (s : LLState) : Int × LLState :=
  if s.cursor = 0 then (-1, s)
  else
    let p1 := skipNonAlnumBack s.current (s.cursor - 1)
    let p2 := skipAlnumBack s.current p1
    (0, { s with cursor := p2 + 1 })

/-- Command `ll_forward_word`: refuse when the byte after the cursor is the
terminator, else skip non-alphanumerics, alphanumerics, then
non-alphanumerics forward. -/
def ll_forward_word (s : LLState) : Int × LLState :=
  if byteAt s.current (s.cursor + 1) = 0 then (-1, s)
  else
    let p1 := skipNonAlnumFwd s.current s.cursor
    let p2 := skipAlnumFwd s.current p1
    let p3 := skipNonAlnumFwd s.current p2
    (0, { s with cursor := p3 })

/-- Command `ll_beginning_of_line`. -/
def ll_beginning_of_line (s : LLState) : Int × LLState :=
  (0, { s with cursor := 0 })

/-- Command `ll_end_of_line`: `cursor = strlen(current)`. -/
def ll_end_of_line (s : LLState) : Int × LLState :=
  (0, { s with cursor := (cstrlen s.current : Int) })

/-- Command `ll_previous_history`: refuse at focus 0, else view the previous entry
with the cursor at its end. -/
def ll_previous_history (s : LLState) : Int × LLState :=
  if s.focus = 0 then (-1, s)
  else
    let f := s.focus - 1
    let e := s.history.getD f []
    (0, { s with focus := f, viewing := some f, cursor := (cstrlen e : Int) })

/-- Command `ll_next_history`: refuse at focus = size, else advance; at focus = size
the buffer is shown again. -/
def ll_next_history (s : LLState) : Int × LLState :=
  if s.focus = s.history.length then (-1, s)
  else
    let f := s.focus + 1
    if f = s.history.length then
      (0, { s with focus := f, viewing := none, cursor := (cstrlen s.buffer : Int) })
    else
      let e := s.history.getD f []
      (0, { s with focus := f, viewing := some f, cursor := (cstrlen e : Int) })

/-- Command `ll_beginning_of_history`: view entry 0, cursor at its end. -/
def ll_beginning_of_history (s : LLState) : Int × LLState :=
  let e := s.history.getD 0 []
  (0, { s with focus := 0, viewing := some 0, cursor := (cstrlen e : Int) })

/-- Command `ll_end_of_history`: view the buffer again, cursor at its end. -/
def ll_end_of_history (s : LLState) : Int × LLState :=
  (0, { s with focus := s.history.length, viewing := none,
               cursor := (cstrlen s.buffer : Int) })

/-- Command `ll_delete_char`: refuse at the terminator; else pop, then erase the
number of bytes selected by the byte-class ladder on the byte at the cursor
(none of the five branches matches a malformed lead, so nothing is erased
then). -/
def ll_delete_char (s : LLState) : Int × LLState :=
  if byteAt s.current s.cursor = 0 then (-1, s)
  else
    let s1 := pop_line s
    let n := encLen (byteAt s1.current s1.cursor)
    let buf := if n = 0 then s1.buffer else listErase s1.buffer s1.cursor.toNat n
    (0, { s1 with buffer := buf, viewing := none })

/-- Command `ll_backward_delete_char`: `ll_backward_char` then `ll_delete_char`,
refusing (and stopping) as soon as either refuses. -/
def ll_backward_delete_char (s : LLState) : Int × LLState :=
  let (r1, s1) := ll_backward_char s
  if r1 ≠ 0 then (-1, s1)
  else
    let (r2, s2) := ll_delete_char s1
    if r2 ≠ 0 then (-1, s2) else (0, s2)

/-- Command `ll_forward_kill_line`: nothing to kill at the terminator (returns 0);
else pop and kill `[cursor, len)`, appending to the clipboard when the last
command was `ll_forward_kill_word`, replacing it otherwise. -/
def ll_forward_kill_line (s : LLState) : Int × LLState :=
  if byteAt s.current s.cursor = 0 then (0, s)
  else
    let s1 := pop_line s
    let len := s1.buffer.length - s1.cursor.toNat
    let killed := s1.buffer.drop s1.cursor.toNat
    let clip := if s1.lastCommand = some LLCmd.forward_kill_word
                then s1.clipboard ++ killed else killed
    (0, { s1 with clipboard := clip,
                  buffer := listErase s1.buffer s1.cursor.toNat len,
                  viewing := none })

/-- Command `ll_backward_kill_line`: nothing to kill at column 0 (returns 0); else
pop and kill `[0, cursor)`, prepending to the clipboard when the last
command was `ll_backward_kill_word`, replacing it otherwise; cursor moves
to 0. -/
def ll_backward_kill_line (s : LLState) : Int × LLState :=
  if s.cursor = 0 then (0, s)
  else
    let s1 := pop_line s
    let killed := s1.buffer.take s1.cursor.toNat
    let clip := if s1.lastCommand = some LLCmd.backward_kill_word
                then killed ++ s1.clipboard else killed
    (0, { s1 with clipboard := clip,
                  buffer := listErase s1.buffer 0 s1.cursor.toNat,
                  viewing := none, cursor := 0 })

/-- Command `ll_forward_kill_word`: nothing to kill at the terminator (returns 0);
else pop, run `ll_forward_word`, kill the crossed span, appending to the
clipboard when the last command was `ll_forward_kill_word`, replacing it
otherwise; cursor returns to the start of the span. -/
def ll_forward_kill_word (s : LLState) : Int × LLState :=
  if byteAt s.current s.cursor = 0 then (0, s)
  else
    let s1 := pop_line s
    let b0 := s1.cursor
    let s2 := (ll_forward_word s1).2
    let len := (s2.cursor - b0).toNat
    let killed := (s2.buffer.drop b0.toNat).take len
    let clip := if s2.lastCommand = some LLCmd.forward_kill_word
                then s2.clipboard ++ killed else killed
    (0, { s2 with clipboard := clip,
                  buffer := listErase s2.buffer b0.toNat len,
                  viewing := none, cursor := b0 })

/-- Command `ll_backward_kill_word`: nothing to kill at column 0 (returns 0); else
pop, run `ll_backward_word`, kill the crossed span, prepending to the
clipboard when the last command was `ll_backward_kill_word`, replacing it
otherwise. -/
def ll_backward_kill_word (s : LLState) : Int × LLState :=
  if s.cursor = 0 then (0, s)
  else
    let s1 := pop_line s
    let e := s1.cursor
    let s2 := (ll_backward_word s1).2
    let len := (e - s2.cursor).toNat
    let killed := (s2.buffer.drop s2.cursor.toNat).take len
    let clip := if s2.lastCommand = some LLCmd.backward_kill_word
                then killed ++ s2.clipboard else killed
    (0, { s2 with clipboard := clip,
                  buffer := listErase s2.buffer s2.cursor.toNat len,
                  viewing := none })

/-- Command `ll_yank`: insert the clipboard at the cursor when it is non-empty;
always returns 0. -/
def ll_yank (s : LLState) : Int × LLState :=
  if s.clipboard.length ≠ 0 then (0, insert_str s s.clipboard) else (0, s)

/-- Command `ll_accept_line`: pop, push the current line into the history, return
the accept value 1 (the history-file write is I/O outside the model). -/
def ll_accept_line (s : LLState) : Int × LLState :=
  let s1 := pop_line s
  let e := s1.current
  (1, { s1 with history := ll_history_push s1.history s1.histMax
                             (e.take (cstrlen e)) })

/-- The byte-emitting scan of `reprint_line` (its `for (it = current; *it;)`
loop): returns the emitted bytes, the accumulated column count `fmt_len`,
and the column recorded when the byte offset crossed `cursor` (if it did).
`pos` is `it - current`, `cols` the columns so far; a truncated trailing
multi-byte sequence (`end - it < n`, with `end` the first NUL) breaks out
of the loop. -/
def scanLine (cursor : Int) (l : List Nat) (pos cols : Nat) : List Nat × Nat × Option Nat :=
  match l with
  | [] => ([], cols, none)
  | b :: rest =>
    if b = 0 then ([], cols, none)
    else
      let fc0 : Option Nat := if (pos : Int) = cursor then some cols else none
      if b < 32 then
        let r := scanLine cursor rest (pos + 1) (cols + 2)
        (94 :: (b + 64) :: r.1, r.2.1, fc0 <|> r.2.2)
      else if b &&& 0x80 = 0 then
        let r := scanLine cursor rest (pos + 1) (cols + 1)
        (b :: r.1, r.2.1, fc0 <|> r.2.2)
      else if b &&& 0xE0 = 0xC0 then
        if cstrlen (b :: rest) < 2 then ([], cols, fc0)
        else
          let r := scanLine cursor (rest.drop 1) (pos + 2) (cols + 1)
          (b :: rest.take 1 ++ r.1, r.2.1, fc0 <|> r.2.2)
      else if b &&& 0xF0 = 0xE0 then
        if cstrlen (b :: rest) < 3 then ([], cols, fc0)
        else
          let r := scanLine cursor (rest.drop 2) (pos + 3) (cols + 1)
          (b :: rest.take 2 ++ r.1, r.2.1, fc0 <|> r.2.2)
      else if b &&& 0xF8 = 0xF0 then
        if cstrlen (b :: rest) < 4 then ([], cols, fc0)
        else
          let r := scanLine cursor (rest.drop 3) (pos + 4) (cols + 1)
          (b :: rest.take 3 ++ r.1, r.2.1, fc0 <|> r.2.2)
      else if b &&& 0xFC = 0xF8 then
        if cstrlen (b :: rest) < 5 then ([], cols, fc0)
        else
          let r := scanLine cursor (rest.drop 4) (pos + 5) (cols + 1)
          (b :: rest.take 4 ++ r.1, r.2.1, fc0 <|> r.2.2)
      else
        let r := scanLine cursor rest (pos + 1) (cols + 4)
        (92 :: 120 :: escHi b :: escLo b :: r.1, r.2.1, fc0 <|> r.2.2)
termination_by l.length
decreasing_by
  all_goals simp only [List.length_cons, List.length_drop]
  all_goals omega

/-- Function `reprint_line`: `fmt_cursor` backspaces to column 0, the rescanned line
image, spaces over leftover columns of the previous image, and backspaces
from the end back to the new `fmt_cursor`.  Returns the emitted bytes and
the new `(fmt_cursor, fmt_len)`. -/
def reprint (cur : List Nat) (cursor : Int) (fmt_cursor fmt_len : Nat) :
    List Nat × Nat × Nat :=
  let r := scanLine cursor cur 0 0
  let cols := r.2.1
  let fc := r.2.2.getD cols
  let iEnd := max cols fmt_len
  (List.replicate fmt_cursor 8 ++ r.1 ++ List.replicate (fmt_len - cols) 32
     ++ List.replicate (iEnd - fc) 8, fc, cols)

/-- Command `ll_terminate`: write a newline, restore the terminal, exit the process
(`none` marks the exit; the newline is the only byte written). -/
def ll_terminate : List Nat × Option (Int × LLState) := ([10], none)

/-- Command `ll_verbatim`: redraw, then insert the next raw byte literally. -/
def ll_verbatim (inp : Nat) (s : LLState) : List Nat × (Int × LLState) :=
  let r := reprint s.current s.cursor s.fmt_cursor s.fmt_len
  let s1 := { s with fmt_cursor := r.2.1, fmt_len := r.2.2 }
  (r.1, (0, insert_char s1 inp))

/-- Command `ll_end_of_file`: `ll_terminate` when `strlen(current)` is 0, else
`ll_delete_char`. -/
def ll_end_of_file (s : LLState) : List Nat × Option (Int × LLState) :=
  if cstrlen s.current = 0 then ll_terminate
  else ([], some (ll_delete_char s))

/-- Run one command: the bytes it writes, and `some (return value, state)`
unless it exits the process (`ll_terminate`).  `inp` is the byte
`keyboard_get` would deliver to `ll_verbatim`. -/
def exec (c : LLCmd) (inp : Nat) (s : LLState) : List Nat × Option (Int × LLState) :=
  match c with
  | LLCmd.beginning_of_line => ([], some (ll_beginning_of_line s))
  | LLCmd.backward_char => ([], some (ll_backward_char s))
  | LLCmd.terminate => ll_terminate
  | LLCmd.end_of_file => ll_end_of_file s
  | LLCmd.end_of_line => ([], some (ll_end_of_line s))
  | LLCmd.forward_char => ([], some (ll_forward_char s))
  | LLCmd.backward_delete_char => ([], some (ll_backward_delete_char s))
  | LLCmd.accept_line => ([], some (ll_accept_line s))
  | LLCmd.forward_kill_line => ([], some (ll_forward_kill_line s))
  | LLCmd.forward_kill_word => ([], some (ll_forward_kill_word s))
  | LLCmd.next_history => ([], some (ll_next_history s))
  | LLCmd.previous_history => ([], some (ll_previous_history s))
  | LLCmd.backward_kill_line => ([], some (ll_backward_kill_line s))
  | LLCmd.verbatim => let r := ll_verbatim inp s; (r.1, some r.2)
  | LLCmd.backward_kill_word => ([], some (ll_backward_kill_word s))
  | LLCmd.yank => ([], some (ll_yank s))
  | LLCmd.backward_word => ([], some (ll_backward_word s))
  | LLCmd.forward_word => ([], some (ll_forward_word s))
  | LLCmd.delete_char => ([], some (ll_delete_char s))
  | LLCmd.beginning_of_history => ([], some (ll_beginning_of_history s))
  | LLCmd.end_of_history => ([], some (ll_end_of_history s))

/-- The FINAL-state arm of `handle_character` (lines 287–295): run the
command, record it in `last_command`, and on a negative return emit BEL and
report 0 (keep reading). -/
def handleFinal (c : LLCmd) (inp : Nat) (s : LLState) :
    List Nat × Option (Int × LLState) :=
  match exec c inp s with
  | (out, none) => (out, none)
  | (out, some (ret, s')) =>
    if ret < 0 then (out ++ [7], some (0, { s' with lastCommand := some c }))
    else (out, some (ret, { s' with lastCommand := some c }))

/-- Result of feeding the key-binding FSM one byte. -/
inductive FeedRes where
  | fInner
  | fFinal (c : LLCmd)
  | fNone
deriving DecidableEq, Repr

/-- Whether `p` is a proper prefix of `q`. -/
def properPrefix (p q : List Nat) : Bool :=
  p.isPrefixOf q && decide (p.length < q.length)

/-- Modelled from the spec (§4.2): the command at trie node `p`, if `p`
spells a full binding; later entries override earlier ones (`fsm.c` is not
under src/). -/
def fsmTerminal (bs : List (List Nat × LLCmd)) (p : List Nat) : Option LLCmd :=
  ((bs.reverse).find? (fun x => x.1 == p)).map (fun x => x.2)

/-- Modelled from the spec (§4.2): node `p` has children iff some binding
continues past it. -/
def fsmHasChildren (bs : List (List Nat × LLCmd)) (p : List Nat) : Bool :=
  bs.any (fun x => properPrefix p x.1)

/-- Modelled from the spec (§4.2): `ll_fsm_feed` — walk one edge from node
`p` on byte `b`; FINAL with the bound command at a terminal leaf, INNER
while continuations exist (a terminal node with children waits, per the
spec's tie-break), NONE (reset to root) on a dead end. -/
def fsmFeed (bs : List (List Nat × LLCmd)) (p : List Nat) (b : Nat) :
    FeedRes × List Nat :=
  let p' := p ++ [b]
  if fsmHasChildren bs p' then (FeedRes.fInner, p')
  else
    match fsmTerminal bs p' with
    | some c => (FeedRes.fFinal c, [])
    | none => (FeedRes.fNone, [])

/-- The default binding table `LL_ANSI_KEY_BINDINGS` of littleline.c. -/
def LL_ANSI_KEY_BINDINGS : List (List Nat × LLCmd) :=
  [([0x01], LLCmd.beginning_of_line),
   ([0x02], LLCmd.backward_char),
   ([0x03], LLCmd.terminate),
   ([0x04], LLCmd.end_of_file),
   ([0x05], LLCmd.end_of_line),
   ([0x06], LLCmd.forward_char),
   ([0x08], LLCmd.backward_delete_char),
   ([0x0A], LLCmd.accept_line),
   ([0x0B], LLCmd.forward_kill_line),
   ([0x0E], LLCmd.next_history),
   ([0x10], LLCmd.previous_history),
   ([0x15], LLCmd.backward_kill_line),
   ([0x16], LLCmd.verbatim),
   ([0x17], LLCmd.backward_kill_word),
   ([0x19], LLCmd.yank),
   ([0x1B, 0x62], LLCmd.backward_word),
   ([0x1B, 0x66], LLCmd.forward_word),
   ([0x1B, 0x5B, 0x41], LLCmd.previous_history),
   ([0x1B, 0x5B, 0x42], LLCmd.next_history),
   ([0x1B, 0x5B, 0x43], LLCmd.forward_char),
   ([0x1B, 0x5B, 0x44], LLCmd.backward_char),
   ([0x1B, 0x5B, 0x33, 0x7E], LLCmd.delete_char),
   ([0x1B, 0x5B, 0x37, 0x7E], LLCmd.beginning_of_line),
   ([0x1B, 0x5B, 0x38, 0x7E], LLCmd.end_of_line),
   ([0x7F], LLCmd.backward_delete_char)]

/-- Whether every byte of `input`, fed in order from node `p`, keeps the FSM
in INNER states — the condition for `handle_character`'s accumulation loop
to still be running (and writing `buf[len]`) after `input.length` bytes. -/
def feedsInner (bs : List (List Nat × LLCmd)) : List Nat → List Nat → Bool
  | _, [] => true
  | p, b :: rest =>
    match fsmFeed bs p b with
    | (FeedRes.fInner, p') => feedsInner bs p' rest
    | _ => false

/-- The editor state at the top of the read loop of the first `ll_read`
call (context initialised, buffer reset, fresh line in focus). -/
def readInit (hist : List (List Nat)) (hmax : Nat) : LLState :=
  { buffer := [], clipboard := [], cursor := 0, fmt_cursor := 0, fmt_len := 0,
    focus := hist.length, viewing := none, history := hist, histMax := hmax,
    lastCommand := none }

/-- The cursor invariant of spec §8: the cursor is a byte offset inside the
current line (`0 ≤ cursor ≤ len`) and does not rest on a UTF-8 continuation
byte (at `cursor = len` it rests on the terminator). -/
def InvC (s : LLState) : Prop :=
  0 ≤ s.cursor ∧ s.cursor ≤ (s.current.length : Int) ∧
    isCont (byteAt s.current s.cursor) = false

/-- A well-formed text line: well-formed UTF-8 with no embedded NUL byte. -/
def WFL (l : List Nat) : Prop :=
  wfUtf8 l = true ∧ ∀ b ∈ l, b ≠ 0

theorem byteAt_neg {l : List Nat} {i : Int} (h : i < 0) : byteAt l i = 0 := by
  simp [byteAt, h]

theorem byteAt_of_nonneg {l : List Nat} {i : Int} (h : 0 ≤ i) :
    byteAt l i = l.getD i.toNat 0 := by
  simp [byteAt, not_lt.mpr h]

theorem byteAt_ne_zero {l : List Nat} {i : Int} (h : byteAt l i ≠ 0) :
    0 ≤ i ∧ i.toNat < l.length := by
  by_cases hlt : i < 0
  · exact absurd (byteAt_neg hlt) h
  · push_neg at hlt
    refine ⟨hlt, ?_⟩
    by_contra hge
    push_neg at hge
    have hnone : l[i.toNat]? = none := List.getElem?_eq_none hge
    exact h (by simp [byteAt, not_lt.mpr hlt, List.getD, hnone])

theorem byteAt_of_le_length {l : List Nat} {i : Int} (h : (l.length : Int) ≤ i) :
    byteAt l i = 0 := by
  by_contra hne
  have hb := byteAt_ne_zero hne
  omega

theorem byteAt_nat (l : List Nat) (n : Nat) : byteAt l (n : Int) = l.getD n 0 := by
  simp [byteAt]

theorem isCont_ge {b : Nat} (h : isCont b = true) : 128 ≤ b := by
  have h0 : b &&& 192 = 128 := by simpa [isCont] using h
  have h1 : b &&& 192 ≤ b := Nat.and_le_left
  omega

theorem isCont_zero : isCont 0 = false := by decide

theorem encLen_eq_zero_of_isCont {b : Nat} (h : isCont b = true) : encLen b = 0 := by
  have h0 : b &&& 192 = 128 := by simpa [isCont] using h
  have key : ∀ m : Nat, m &&& 192 = 192 → (b &&& m) &&& 192 = 128 := by
    intro m hm
    rw [Nat.and_assoc, hm, h0]
  have h128 : b &&& 128 = 128 := by
    have h2 : (b &&& 192) &&& 128 = b &&& 128 := by
      rw [Nat.and_assoc, show (192 &&& 128 : Nat) = 128 from by decide]
    rw [h0] at h2
    rw [show (128 &&& 128 : Nat) = 128 from by decide] at h2
    exact h2.symm
  have h224 : ¬ b &&& 224 = 192 := by
    intro hc
    have h2 := key 224 (by decide)
    rw [hc] at h2
    exact absurd h2 (by decide)
  have h240 : ¬ b &&& 240 = 224 := by
    intro hc
    have h2 := key 240 (by decide)
    rw [hc] at h2
    exact absurd h2 (by decide)
  have h248 : ¬ b &&& 248 = 240 := by
    intro hc
    have h2 := key 248 (by decide)
    rw [hc] at h2
    exact absurd h2 (by decide)
  have h252 : ¬ b &&& 252 = 248 := by
    intro hc
    have h2 := key 252 (by decide)
    rw [hc] at h2
    exact absurd h2 (by decide)
  simp [encLen, h128, h224, h240, h248, h252]

theorem isCont_eq_false_of_encLen {b : Nat} (h : encLen b ≠ 0) :
    isCont b = false := by
  by_contra hc
  rw [Bool.not_eq_false] at hc
  exact h (encLen_eq_zero_of_isCont hc)

theorem llIsAlnum_not_cont {b : Nat} (h : llIsAlnum b = true) :
    isCont b = false := by
  have hb : b ≤ 122 := by
    simp [llIsAlnum] at h
    omega
  by_contra hc
  rw [Bool.not_eq_false] at hc
  have := isCont_ge hc
  omega

theorem cstrlen_le (l : List Nat) : cstrlen l ≤ l.length := by
  induction l with
  | nil => simp [cstrlen]
  | cons b rest ih =>
    by_cases hb : b = 0
    · simp [cstrlen, List.takeWhile_cons, hb]
    · simp only [cstrlen, List.takeWhile_cons] at ih ⊢
      simp [hb]
      omega

theorem cstrlen_of_noNul {l : List Nat} (h : ∀ b ∈ l, b ≠ 0) :
    cstrlen l = l.length := by
  induction l with
  | nil => rfl
  | cons b rest ih =>
    have hb : b ≠ 0 := h b (by simp)
    simp [cstrlen, List.takeWhile_cons, hb] at ih ⊢
    exact ih fun x hx => h x (by simp [hx])

theorem byteAt_cstrlen (l : List Nat) : byteAt l (cstrlen l) = 0 := by
  induction l with
  | nil => simp [cstrlen, byteAt]
  | cons b rest ih =>
    by_cases hb : b = 0
    · simp [cstrlen, List.takeWhile_cons, hb, byteAt]
    · have hstep : cstrlen (b :: rest) = cstrlen rest + 1 := by
        simp [cstrlen, List.takeWhile_cons, hb]
      rw [hstep]
      rw [byteAt_nat] at ih ⊢
      simpa [List.getD_cons_succ] using ih

theorem getD_drop (l : List Nat) (k j : Nat) :
    (l.drop k).getD j 0 = l.getD (k + j) 0 := by
  rw [List.getD_eq_getElem?_getD, List.getD_eq_getElem?_getD, List.getElem?_drop]

theorem getD_mem_take {l : List Nat} {k i : Nat} (h : i < k) (h2 : i < l.length) :
    l.getD i 0 ∈ l.take k := by
  have h3 : i < (l.take k).length := by simp; omega
  have h4 : (l.take k)[i] = l[i] := List.getElem_take l
  rw [List.getD_eq_getElem l 0 h2, ← h4]
  exact List.getElem_mem _

theorem wfUtf8_cons {b : Nat} {rest : List Nat} :
    wfUtf8 (b :: rest) =
      (if encLen b = 0 then false
       else ((rest.take (encLen b - 1)).length == encLen b - 1
              && (rest.take (encLen b - 1)).all isCont)
            && wfUtf8 (rest.drop (encLen b - 1))) := by
  rw [wfUtf8]

theorem wf_head_not_cont {l : List Nat} (h : wfUtf8 l = true) :
    isCont (l.getD 0 0) = false := by
  cases l with
  | nil => simpa using isCont_zero
  | cons b rest =>
    rw [wfUtf8_cons] at h
    by_cases hn : encLen b = 0
    · simp [hn] at h
    · simpa using isCont_eq_false_of_encLen hn

theorem wf_boundary_aux :
    ∀ (n : Nat) (l : List Nat), l.length ≤ n → wfUtf8 l = true →
    ∀ p : Nat, p < l.length → isCont (l.getD p 0) = false →
    encLen (l.getD p 0) ≠ 0 ∧ p + encLen (l.getD p 0) ≤ l.length ∧
      isCont (l.getD (p + encLen (l.getD p 0)) 0) = false := by
  intro n
  induction n with
  | zero =>
    intro l hl hwf p hp hnc
    omega
  | succ n ih =>
    intro l hl hwf p hp hnc
    cases l with
    | nil => simp at hp
    | cons b rest =>
      rw [wfUtf8_cons] at hwf
      by_cases hn0 : encLen b = 0
      · simp [hn0] at hwf
      · rw [if_neg hn0, Bool.and_eq_true, Bool.and_eq_true] at hwf
        obtain ⟨⟨hlen, hall⟩, hrec⟩ := hwf
        have hlen2 : min (encLen b - 1) rest.length = encLen b - 1 := by
          simpa [List.length_take] using hlen
        have hlen' : encLen b - 1 ≤ rest.length := by omega
        rcases Nat.eq_zero_or_pos p with hp0 | hppos
        · subst hp0
          simp only [List.getD_cons_zero, Nat.zero_add]
          refine ⟨hn0, by simp [List.length_cons]; omega, ?_⟩
          have hshift : (b :: rest).getD (encLen b) 0
              = (rest.drop (encLen b - 1)).getD 0 0 := by
            rw [getD_drop, Nat.add_zero]
            have he : encLen b = (encLen b - 1) + 1 := by omega
            rw [he, List.getD_cons_succ]
            simp [Nat.add_sub_cancel]
          rw [hshift]
          exact wf_head_not_cont hrec
        · have hq : (b :: rest).getD p 0 = rest.getD (p - 1) 0 := by
            cases p with
            | zero => omega
            | succ q => simp [List.getD_cons_succ]
          by_cases hpn : p < encLen b
          · exfalso
            have h2 : p - 1 < rest.length := by
              simp [List.length_cons] at hp
              omega
            have hmem : rest.getD (p - 1) 0 ∈ rest.take (encLen b - 1) :=
              getD_mem_take (by omega) h2
            have hcont : isCont (rest.getD (p - 1) 0) = true :=
              List.all_eq_true.mp hall _ hmem
            rw [hq, hcont] at hnc
            simp at hnc
          · push_neg at hpn
            have hq2 : (b :: rest).getD p 0
                = (rest.drop (encLen b - 1)).getD (p - encLen b) 0 := by
              rw [hq, getD_drop]
              congr 1
              omega
            have hq3 : ∀ m : Nat, (b :: rest).getD (p + m) 0
                = (rest.drop (encLen b - 1)).getD (p - encLen b + m) 0 := by
              intro m
              have hpm : (b :: rest).getD (p + m) 0 = rest.getD (p + m - 1) 0 := by
                have he : p + m = (p + m - 1) + 1 := by omega
                rw [he, List.getD_cons_succ]
                simp [Nat.add_sub_cancel]
              rw [hpm, getD_drop]
              congr 1
              omega
            have hplen : p - encLen b < (rest.drop (encLen b - 1)).length := by
              simp only [List.length_drop]
              simp [List.length_cons] at hp
              omega
            have hres := ih (rest.drop (encLen b - 1))
              (by simp only [List.length_drop]; simp [List.length_cons] at hl; omega)
              hrec (p - encLen b) hplen (by rw [← hq2]; exact hnc)
            obtain ⟨ha, hb2, hc2⟩ := hres
            rw [List.length_drop] at hb2
            refine ⟨by rw [hq2]; exact ha, ?_, ?_⟩
            · rw [hq2, List.length_cons]
              omega
            · rw [hq2, hq3 (encLen ((rest.drop (encLen b - 1)).getD (p - encLen b) 0))]
              exact hc2

theorem wf_boundary {l : List Nat} (hwf : wfUtf8 l = true) {p : Nat}
    (hp : p < l.length) (hnc : isCont (l.getD p 0) = false) :
    encLen (l.getD p 0) ≠ 0 ∧ p + encLen (l.getD p 0) ≤ l.length ∧
      isCont (l.getD (p + encLen (l.getD p 0)) 0) = false :=
  wf_boundary_aux l.length l le_rfl hwf p hp hnc

theorem moveBack_le (l : List Nat) (p : Int) : moveBack l p ≤ p := by
  induction p using moveBack.induct l with
  | case1 p h ih =>
    rw [moveBack, dif_pos h]
    omega
  | case2 p h =>
    rw [moveBack, dif_neg h]

theorem moveBack_not_cont (l : List Nat) (p : Int) :
    isCont (byteAt l (moveBack l p)) = false := by
  induction p using moveBack.induct l with
  | case1 p h ih =>
    rw [moveBack, dif_pos h]
    exact ih
  | case2 p h =>
    rw [moveBack, dif_neg h]
    simpa using h

theorem moveBack_nonneg {l : List Nat} (hwf : wfUtf8 l = true) (p : Int)
    (hp : 0 ≤ p) : 0 ≤ moveBack l p := by
  induction p using moveBack.induct l with
  | case1 p h ih =>
    rw [moveBack, dif_pos h]
    have hz : p ≠ 0 := by
      intro h0
      rw [h0] at h
      rw [show byteAt l 0 = l.getD 0 0 from byteAt_nat l 0] at h
      rw [wf_head_not_cont hwf] at h
      simp at h
    exact ih (by omega)
  | case2 p h =>
    rw [moveBack, dif_neg h]
    exact hp

theorem moveFwd_ge (l : List Nat) (p : Int) : p ≤ moveFwd l p := by
  induction p using moveFwd.induct l with
  | case1 p h ih =>
    rw [moveFwd, dif_pos h]
    omega
  | case2 p h =>
    rw [moveFwd, dif_neg h]

theorem moveFwd_not_cont (l : List Nat) (p : Int) :
    isCont (byteAt l (moveFwd l p)) = false := by
  induction p using moveFwd.induct l with
  | case1 p h ih =>
    rw [moveFwd, dif_pos h]
    exact ih
  | case2 p h =>
    rw [moveFwd, dif_neg h]
    simpa using h

theorem moveFwd_le_len (l : List Nat) (p : Int) (hp : p ≤ (l.length : Int)) :
    moveFwd l p ≤ (l.length : Int) := by
  induction p using moveFwd.induct l with
  | case1 p h ih =>
    rw [moveFwd, dif_pos h]
    have hb : byteAt l p ≠ 0 := by
      intro h0
      rw [h0] at h
      simp [isCont] at h
    have hbd := byteAt_ne_zero hb
    exact ih (by omega)
  | case2 p h =>
    rw [moveFwd, dif_neg h]
    exact hp

theorem skipNonAlnumBack_le (l : List Nat) (p : Int) : skipNonAlnumBack l p ≤ p := by
  induction p using skipNonAlnumBack.induct l with
  | case1 p h ih =>
    rw [skipNonAlnumBack, dif_pos h]
    omega
  | case2 p h =>
    rw [skipNonAlnumBack, dif_neg h]

theorem skipNonAlnumBack_ge (l : List Nat) (p : Int) (hp : -1 ≤ p) :
    -1 ≤ skipNonAlnumBack l p := by
  induction p using skipNonAlnumBack.induct l with
  | case1 p h ih =>
    rw [skipNonAlnumBack, dif_pos h]
    exact ih (by omega)
  | case2 p h =>
    rw [skipNonAlnumBack, dif_neg h]
    exact hp

theorem skipNonAlnumBack_exit (l : List Nat) (p : Int) :
    skipNonAlnumBack l p < 0 ∨ llIsAlnum (byteAt l (skipNonAlnumBack l p)) = true := by
  induction p using skipNonAlnumBack.induct l with
  | case1 p h ih =>
    rw [skipNonAlnumBack, dif_pos h]
    exact ih
  | case2 p h =>
    rw [skipNonAlnumBack, dif_neg h]
    rw [not_and_or] at h
    rcases h with h | h
    · left
      omega
    · right
      simpa using h

theorem skipAlnumBack_le (l : List Nat) (p : Int) : skipAlnumBack l p ≤ p := by
  induction p using skipAlnumBack.induct l with
  | case1 p h ih =>
    rw [skipAlnumBack, dif_pos h]
    omega
  | case2 p h =>
    rw [skipAlnumBack, dif_neg h]

theorem skipAlnumBack_ge (l : List Nat) (p : Int) (hp : -1 ≤ p) :
    -1 ≤ skipAlnumBack l p := by
  induction p using skipAlnumBack.induct l with
  | case1 p h ih =>
    rw [skipAlnumBack, dif_pos h]
    exact ih (by omega)
  | case2 p h =>
    rw [skipAlnumBack, dif_neg h]
    exact hp

theorem skipAlnumBack_exit (l : List Nat) (p : Int) :
    skipAlnumBack l p < 0 ∨ llIsAlnum (byteAt l (skipAlnumBack l p)) = false := by
  induction p using skipAlnumBack.induct l with
  | case1 p h ih =>
    rw [skipAlnumBack, dif_pos h]
    exact ih
  | case2 p h =>
    rw [skipAlnumBack, dif_neg h]
    rw [not_and_or] at h
    rcases h with h | h
    · left
      omega
    · right
      simpa using h

theorem skipAlnumBack_last (l : List Nat) (p : Int) :
    skipAlnumBack l p = p ∨ llIsAlnum (byteAt l (skipAlnumBack l p + 1)) = true := by
  induction p using skipAlnumBack.induct l with
  | case1 p h ih =>
    rw [skipAlnumBack, dif_pos h]
    rcases ih with ih | ih
    · right
      rw [ih]
      have he : p - 1 + 1 = p := by omega
      rw [he]
      exact h.2
    · right
      exact ih
  | case2 p h =>
    left
    rw [skipAlnumBack, dif_neg h]

theorem skipNonAlnumFwd_ge (l : List Nat) (p : Int) : p ≤ skipNonAlnumFwd l p := by
  induction p using skipNonAlnumFwd.induct l with
  | case1 p h ih =>
    rw [skipNonAlnumFwd, dif_pos h]
    omega
  | case2 p h =>
    rw [skipNonAlnumFwd, dif_neg h]

theorem skipNonAlnumFwd_le_len (l : List Nat) (p : Int) (hp : p ≤ (l.length : Int)) :
    skipNonAlnumFwd l p ≤ (l.length : Int) := by
  induction p using skipNonAlnumFwd.induct l with
  | case1 p h ih =>
    rw [skipNonAlnumFwd, dif_pos h]
    have hbd := byteAt_ne_zero h.1
    exact ih (by omega)
  | case2 p h =>
    rw [skipNonAlnumFwd, dif_neg h]
    exact hp

theorem skipNonAlnumFwd_exit (l : List Nat) (p : Int) :
    byteAt l (skipNonAlnumFwd l p) = 0 ∨
      llIsAlnum (byteAt l (skipNonAlnumFwd l p)) = true := by
  induction p using skipNonAlnumFwd.induct l with
  | case1 p h ih =>
    rw [skipNonAlnumFwd, dif_pos h]
    exact ih
  | case2 p h =>
    rw [skipNonAlnumFwd, dif_neg h]
    rw [not_and_or] at h
    rcases h with h | h
    · left
      simpa using h
    · right
      simpa using h

theorem skipAlnumFwd_ge (l : List Nat) (p : Int) : p ≤ skipAlnumFwd l p := by
  induction p using skipAlnumFwd.induct l with
  | case1 p h ih =>
    rw [skipAlnumFwd, dif_pos h]
    omega
  | case2 p h =>
    rw [skipAlnumFwd, dif_neg h]

theorem skipAlnumFwd_le_len (l : List Nat) (p : Int) (hp : p ≤ (l.length : Int)) :
    skipAlnumFwd l p ≤ (l.length : Int) := by
  induction p using skipAlnumFwd.induct l with
  | case1 p h ih =>
    rw [skipAlnumFwd, dif_pos h]
    have hbd := byteAt_ne_zero h.1
    exact ih (by omega)
  | case2 p h =>
    rw [skipAlnumFwd, dif_neg h]
    exact hp

theorem skipAlnumFwd_exit (l : List Nat) (p : Int) :
    byteAt l (skipAlnumFwd l p) = 0 ∨
      llIsAlnum (byteAt l (skipAlnumFwd l p)) = false := by
  induction p using skipAlnumFwd.induct l with
  | case1 p h ih =>
    rw [skipAlnumFwd, dif_pos h]
    exact ih
  | case2 p h =>
    rw [skipAlnumFwd, dif_neg h]
    rw [not_and_or] at h
    rcases h with h | h
    · left
      simpa using h
    · right
      simpa using h

theorem current_set_cursor (s : LLState) (c : Int) :
    ({ s with cursor := c } : LLState).current = s.current := rfl

theorem current_of_viewing_none {s : LLState} (h : s.viewing = none) :
    s.current = s.buffer := by
  simp [LLState.current, h]

theorem current_of_viewing_some {s : LLState} {i : Nat} (h : s.viewing = some i) :
    s.current = s.history.getD i [] := by
  simp [LLState.current, h]

theorem pop_line_viewing (s : LLState) : (pop_line s).viewing = none := by
  unfold pop_line
  cases h : s.viewing
  · exact h
  · rfl

theorem pop_line_cursor (s : LLState) : (pop_line s).cursor = s.cursor := by
  unfold pop_line
  cases h : s.viewing
  · rfl
  · rfl

theorem pop_line_clipboard (s : LLState) : (pop_line s).clipboard = s.clipboard := by
  unfold pop_line
  cases h : s.viewing
  · rfl
  · rfl

theorem pop_line_history (s : LLState) : (pop_line s).history = s.history := by
  unfold pop_line
  cases h : s.viewing
  · rfl
  · rfl

theorem pop_line_lastCommand (s : LLState) :
    (pop_line s).lastCommand = s.lastCommand := by
  unfold pop_line
  cases h : s.viewing
  · rfl
  · rfl

theorem pop_line_histMax (s : LLState) : (pop_line s).histMax = s.histMax := by
  unfold pop_line
  cases h : s.viewing
  · rfl
  · rfl

theorem pop_line_fmt_cursor (s : LLState) :
    (pop_line s).fmt_cursor = s.fmt_cursor := by
  unfold pop_line
  cases h : s.viewing
  · rfl
  · rfl

theorem pop_line_fmt_len (s : LLState) : (pop_line s).fmt_len = s.fmt_len := by
  unfold pop_line
  cases h : s.viewing
  · rfl
  · rfl

theorem pop_line_buffer_of_noNul {s : LLState} (h : ∀ b ∈ s.current, b ≠ 0) :
    (pop_line s).buffer = s.current := by
  unfold pop_line
  cases hv : s.viewing with
  | none => rw [current_of_viewing_none hv]
  | some i =>
    rw [current_of_viewing_some hv] at h ⊢
    simp only [cstrlen_of_noNul h, List.take_length]

theorem pop_line_current_of_noNul {s : LLState} (h : ∀ b ∈ s.current, b ≠ 0) :
    (pop_line s).current = s.current := by
  rw [current_of_viewing_none (pop_line_viewing s)]
  exact pop_line_buffer_of_noNul h

theorem getD_append_right {l1 l2 : List Nat} {n : Nat} (h : l1.length ≤ n) :
    (l1 ++ l2).getD n 0 = l2.getD (n - l1.length) 0 := by
  rw [List.getD_eq_getElem?_getD, List.getD_eq_getElem?_getD,
    List.getElem?_append_right h]

theorem length_take_of_le {l : List Nat} {off : Nat} (h : off ≤ l.length) :
    (l.take off).length = off := by
  simp [List.length_take]
  omega

theorem listErase_length {l : List Nat} {off cnt : Nat} (h : off ≤ l.length) :
    (listErase l off cnt).length = off + (l.length - (off + cnt)) := by
  simp [listErase, List.length_append, List.length_take, List.length_drop]
  omega

theorem listErase_getD_at {l : List Nat} {off cnt : Nat} (h : off ≤ l.length) :
    (listErase l off cnt).getD off 0 = l.getD (off + cnt) 0 := by
  unfold listErase
  rw [getD_append_right (by rw [length_take_of_le h])]
  rw [length_take_of_le h, Nat.sub_self, getD_drop, Nat.add_zero]

theorem listInsert_length {l : List Nat} {off : Nat} {xs : List Nat}
    (h : off ≤ l.length) :
    (listInsert l off xs).length = l.length + xs.length := by
  simp [listInsert, List.length_append, List.length_take, List.length_drop]
  omega

theorem listInsert_getD_at {l : List Nat} {off : Nat} {xs : List Nat}
    (h : off ≤ l.length) :
    (listInsert l off xs).getD (off + xs.length) 0 = l.getD off 0 := by
  unfold listInsert
  rw [show l.take off ++ xs ++ l.drop off = (l.take off ++ xs) ++ l.drop off from by
    rw [List.append_assoc]]
  rw [getD_append_right (by simp [length_take_of_le h])]
  rw [List.length_append, length_take_of_le h, Nat.sub_self, getD_drop, Nat.add_zero]

theorem inv_beginning_of_line {s : LLState} (hwf : wfUtf8 s.current = true) :
    InvC (ll_beginning_of_line s).2 := by
  unfold ll_beginning_of_line InvC
  refine ⟨le_refl 0, ?_, ?_⟩
  · show (0 : Int) ≤ (s.current.length : Int)
    exact Int.natCast_nonneg _
  · show isCont (byteAt s.current 0) = false
    have h0 : byteAt s.current 0 = s.current.getD 0 0 := by
      simp [byteAt]
    rw [h0]
    exact wf_head_not_cont hwf

theorem inv_end_of_line (s : LLState) : InvC (ll_end_of_line s).2 := by
  unfold ll_end_of_line InvC
  refine ⟨?_, ?_, ?_⟩
  · show (0 : Int) ≤ (cstrlen s.current : Int)
    exact Int.natCast_nonneg _
  · show (cstrlen s.current : Int) ≤ (s.current.length : Int)
    exact_mod_cast cstrlen_le s.current
  · show isCont (byteAt s.current (cstrlen s.current)) = false
    rw [byteAt_cstrlen]
    exact isCont_zero

theorem inv_backward_char {s : LLState} (hwf : wfUtf8 s.current = true)
    (hinv : InvC s) : InvC (ll_backward_char s).2 := by
  unfold ll_backward_char
  split
  · exact hinv
  · rename_i hc
    obtain ⟨h0, hlen, hnc⟩ := hinv
    unfold InvC
    refine ⟨?_, ?_, ?_⟩
    · show (0 : Int) ≤ moveBack s.current (s.cursor - 1)
      exact moveBack_nonneg hwf _ (by omega)
    · show moveBack s.current (s.cursor - 1) ≤ (s.current.length : Int)
      have h1 := moveBack_le s.current (s.cursor - 1)
      omega
    · show isCont (byteAt s.current (moveBack s.current (s.cursor - 1))) = false
      exact moveBack_not_cont s.current (s.cursor - 1)

theorem inv_forward_char {s : LLState} (hinv : InvC s) :
    InvC (ll_forward_char s).2 := by
  unfold ll_forward_char
  split
  · exact hinv
  · rename_i hc
    obtain ⟨h0, hlen, hnc⟩ := hinv
    have hb := byteAt_ne_zero hc
    have hlt : s.cursor < (s.current.length : Int) := by omega
    unfold InvC
    refine ⟨?_, ?_, ?_⟩
    · show (0 : Int) ≤ moveFwd s.current (s.cursor + 1)
      have h1 := moveFwd_ge s.current (s.cursor + 1)
      omega
    · show moveFwd s.current (s.cursor + 1) ≤ (s.current.length : Int)
      exact moveFwd_le_len s.current (s.cursor + 1) (by omega)
    · show isCont (byteAt s.current (moveFwd s.current (s.cursor + 1))) = false
      exact moveFwd_not_cont s.current (s.cursor + 1)

theorem inv_backward_word {s : LLState} (hwf : wfUtf8 s.current = true)
    (hinv : InvC s) : InvC (ll_backward_word s).2 := by
  unfold ll_backward_word
  split
  · exact hinv
  · rename_i hc
    obtain ⟨h0, hlen, hnc⟩ := hinv
    have hp1ge : -1 ≤ skipNonAlnumBack s.current (s.cursor - 1) :=
      skipNonAlnumBack_ge _ _ (by omega)
    have hp1le : skipNonAlnumBack s.current (s.cursor - 1) ≤ s.cursor - 1 :=
      skipNonAlnumBack_le _ _
    have hp2ge : -1 ≤ skipAlnumBack s.current (skipNonAlnumBack s.current (s.cursor - 1)) :=
      skipAlnumBack_ge _ _ hp1ge
    have hp2le : skipAlnumBack s.current (skipNonAlnumBack s.current (s.cursor - 1))
        ≤ skipNonAlnumBack s.current (s.cursor - 1) :=
      skipAlnumBack_le _ _
    unfold InvC
    refine ⟨?_, ?_, ?_⟩
    · show (0 : Int) ≤
        skipAlnumBack s.current (skipNonAlnumBack s.current (s.cursor - 1)) + 1
      omega
    · show skipAlnumBack s.current (skipNonAlnumBack s.current (s.cursor - 1)) + 1
        ≤ (s.current.length : Int)
      omega
    · show isCont (byteAt s.current
        (skipAlnumBack s.current (skipNonAlnumBack s.current (s.cursor - 1)) + 1)) = false
      rcases skipAlnumBack_last s.current (skipNonAlnumBack s.current (s.cursor - 1))
        with heq | halnum
      · rcases skipNonAlnumBack_exit s.current (s.cursor - 1) with hneg | halnum1
        · have h00 : skipNonAlnumBack s.current (s.cursor - 1) + 1 = 0 := by omega
          rw [heq, h00]
          have hb0 : byteAt s.current 0 = s.current.getD 0 0 := by
            simp [byteAt]
          rw [hb0]
          exact wf_head_not_cont hwf
        · exfalso
          have hp1nn : 0 ≤ skipNonAlnumBack s.current (s.cursor - 1) := by
            have hnz : byteAt s.current (skipNonAlnumBack s.current (s.cursor - 1)) ≠ 0 := by
              intro hz
              rw [hz] at halnum1
              simp [llIsAlnum] at halnum1
            exact (byteAt_ne_zero hnz).1
          have hstep : skipAlnumBack s.current (skipNonAlnumBack s.current (s.cursor - 1))
              = skipAlnumBack s.current (skipNonAlnumBack s.current (s.cursor - 1) - 1) := by
            rw [skipAlnumBack, dif_pos ⟨hp1nn, halnum1⟩]
          have hle2 := skipAlnumBack_le s.current
            (skipNonAlnumBack s.current (s.cursor - 1) - 1)
          rw [heq] at hstep
          omega
      · exact llIsAlnum_not_cont halnum

theorem inv_forward_word {s : LLState} (hinv : InvC s) :
    InvC (ll_forward_word s).2 := by
  unfold ll_forward_word
  split
  · exact hinv
  · rename_i hc
    obtain ⟨h0, hlen, hnc⟩ := hinv
    have c1 := skipNonAlnumFwd_ge s.current s.cursor
    have c2 := skipAlnumFwd_ge s.current (skipNonAlnumFwd s.current s.cursor)
    have c3 := skipNonAlnumFwd_ge s.current
      (skipAlnumFwd s.current (skipNonAlnumFwd s.current s.cursor))
    have d1 := skipNonAlnumFwd_le_len s.current s.cursor hlen
    have d2 := skipAlnumFwd_le_len s.current (skipNonAlnumFwd s.current s.cursor) d1
    have d3 := skipNonAlnumFwd_le_len s.current
      (skipAlnumFwd s.current (skipNonAlnumFwd s.current s.cursor)) d2
    unfold InvC
    refine ⟨?_, ?_, ?_⟩
    · show (0 : Int) ≤ skipNonAlnumFwd s.current
        (skipAlnumFwd s.current (skipNonAlnumFwd s.current s.cursor))
      omega
    · show skipNonAlnumFwd s.current
        (skipAlnumFwd s.current (skipNonAlnumFwd s.current s.cursor))
        ≤ (s.current.length : Int)
      exact d3
    · show isCont (byteAt s.current (skipNonAlnumFwd s.current
        (skipAlnumFwd s.current (skipNonAlnumFwd s.current s.cursor)))) = false
      rcases skipNonAlnumFwd_exit s.current
        (skipAlnumFwd s.current (skipNonAlnumFwd s.current s.cursor)) with hz | ha
      · rw [hz]
        exact isCont_zero
      · exact llIsAlnum_not_cont ha

theorem inv_previous_history {s : LLState} (hinv : InvC s) :
    InvC (ll_previous_history s).2 := by
  unfold ll_previous_history
  split
  · exact hinv
  · unfold InvC
    refine ⟨?_, ?_, ?_⟩
    · show (0 : Int) ≤ (cstrlen (s.history.getD (s.focus - 1) []) : Int)
      exact Int.natCast_nonneg _
    · show (cstrlen (s.history.getD (s.focus - 1) []) : Int)
        ≤ ((s.history.getD (s.focus - 1) []).length : Int)
      exact_mod_cast cstrlen_le _
    · show isCont (byteAt (s.history.getD (s.focus - 1) [])
        (cstrlen (s.history.getD (s.focus - 1) []))) = false
      rw [byteAt_cstrlen]
      exact isCont_zero

theorem inv_next_history {s : LLState} (hinv : InvC s) :
    InvC (ll_next_history s).2 := by
  unfold ll_next_history
  split
  · exact hinv
  · dsimp only
    split
    · unfold InvC
      refine ⟨?_, ?_, ?_⟩
      · show (0 : Int) ≤ (cstrlen s.buffer : Int)
        exact Int.natCast_nonneg _
      · show (cstrlen s.buffer : Int) ≤ (s.buffer.length : Int)
        exact_mod_cast cstrlen_le _
      · show isCont (byteAt s.buffer (cstrlen s.buffer)) = false
        rw [byteAt_cstrlen]
        exact isCont_zero
    · unfold InvC
      refine ⟨?_, ?_, ?_⟩
      · show (0 : Int) ≤ (cstrlen (s.history.getD (s.focus + 1) []) : Int)
        exact Int.natCast_nonneg _
      · show (cstrlen (s.history.getD (s.focus + 1) []) : Int)
          ≤ ((s.history.getD (s.focus + 1) []).length : Int)
        exact_mod_cast cstrlen_le _
      · show isCont (byteAt (s.history.getD (s.focus + 1) [])
          (cstrlen (s.history.getD (s.focus + 1) []))) = false
        rw [byteAt_cstrlen]
        exact isCont_zero

theorem inv_beginning_of_history (s : LLState) :
    InvC (ll_beginning_of_history s).2 := by
  unfold ll_beginning_of_history InvC
  refine ⟨?_, ?_, ?_⟩
  · show (0 : Int) ≤ (cstrlen (s.history.getD 0 []) : Int)
    exact Int.natCast_nonneg _
  · show (cstrlen (s.history.getD 0 []) : Int) ≤ ((s.history.getD 0 []).length : Int)
    exact_mod_cast cstrlen_le _
  · show isCont (byteAt (s.history.getD 0 []) (cstrlen (s.history.getD 0 []))) = false
    rw [byteAt_cstrlen]
    exact isCont_zero

theorem inv_end_of_history (s : LLState) : InvC (ll_end_of_history s).2 := by
  unfold ll_end_of_history InvC
  refine ⟨?_, ?_, ?_⟩
  · show (0 : Int) ≤ (cstrlen s.buffer : Int)
    exact Int.natCast_nonneg _
  · show (cstrlen s.buffer : Int) ≤ (s.buffer.length : Int)
    exact_mod_cast cstrlen_le _
  · show isCont (byteAt s.buffer (cstrlen s.buffer)) = false
    rw [byteAt_cstrlen]
    exact isCont_zero

theorem inv_delete_char {s : LLState} (hwfl : WFL s.current) (hinv : InvC s) :
    InvC (ll_delete_char s).2 := by
  obtain ⟨hwf, hnul⟩ := hwfl
  obtain ⟨h0, hlen, hnc⟩ := hinv
  unfold ll_delete_char
  split
  · exact ⟨h0, hlen, hnc⟩
  · rename_i hb
    have hbb := byteAt_ne_zero hb
    have hgetd : s.current.getD s.cursor.toNat 0 = byteAt s.current s.cursor :=
      (byteAt_of_nonneg hbb.1).symm
    have hwb := wf_boundary hwf hbb.2 (by rw [hgetd]; exact hnc)
    rw [hgetd] at hwb
    obtain ⟨hn0, hbound, hcnext⟩ := hwb
    dsimp only
    rw [pop_line_current_of_noNul hnul, pop_line_cursor, pop_line_buffer_of_noNul hnul,
      if_neg hn0]
    unfold InvC
    refine ⟨?_, ?_, ?_⟩
    · show (0 : Int) ≤ s.cursor
      exact hbb.1
    · show s.cursor ≤ ((listErase s.current s.cursor.toNat
        (encLen (byteAt s.current s.cursor))).length : Int)
      rw [listErase_length (le_of_lt hbb.2)]
      omega
    · show isCont (byteAt (listErase s.current s.cursor.toNat
        (encLen (byteAt s.current s.cursor))) s.cursor) = false
      rw [byteAt_of_nonneg hbb.1, listErase_getD_at (le_of_lt hbb.2)]
      exact hcnext

theorem bc_current (s : LLState) : (ll_backward_char s).2.current = s.current := by
  unfold ll_backward_char
  split
  · rfl
  · exact current_set_cursor s _

theorem fw_fields (t : LLState) :
    (ll_forward_word t).2.buffer = t.buffer ∧
    (ll_forward_word t).2.viewing = t.viewing ∧
    (ll_forward_word t).2.clipboard = t.clipboard ∧
    (ll_forward_word t).2.lastCommand = t.lastCommand ∧
    (ll_forward_word t).2.history = t.history ∧
    (ll_forward_word t).2.current = t.current := by
  unfold ll_forward_word
  split
  · exact ⟨rfl, rfl, rfl, rfl, rfl, rfl⟩
  · exact ⟨rfl, rfl, rfl, rfl, rfl, current_set_cursor t _⟩

theorem bw_fields (t : LLState) :
    (ll_backward_word t).2.buffer = t.buffer ∧
    (ll_backward_word t).2.viewing = t.viewing ∧
    (ll_backward_word t).2.clipboard = t.clipboard ∧
    (ll_backward_word t).2.lastCommand = t.lastCommand ∧
    (ll_backward_word t).2.history = t.history ∧
    (ll_backward_word t).2.current = t.current := by
  unfold ll_backward_word
  split
  · exact ⟨rfl, rfl, rfl, rfl, rfl, rfl⟩
  · exact ⟨rfl, rfl, rfl, rfl, rfl, current_set_cursor t _⟩

theorem fw_cursor_ge (t : LLState) (_h0 : 0 ≤ t.cursor) :
    t.cursor ≤ (ll_forward_word t).2.cursor := by
  unfold ll_forward_word
  split
  · exact le_refl _
  · show t.cursor ≤ skipNonAlnumFwd t.current
      (skipAlnumFwd t.current (skipNonAlnumFwd t.current t.cursor))
    have c1 := skipNonAlnumFwd_ge t.current t.cursor
    have c2 := skipAlnumFwd_ge t.current (skipNonAlnumFwd t.current t.cursor)
    have c3 := skipNonAlnumFwd_ge t.current
      (skipAlnumFwd t.current (skipNonAlnumFwd t.current t.cursor))
    omega

theorem fw_cursor_le_len (t : LLState) (hlen : t.cursor ≤ (t.current.length : Int)) :
    (ll_forward_word t).2.cursor ≤ (t.current.length : Int) := by
  unfold ll_forward_word
  split
  · exact hlen
  · show skipNonAlnumFwd t.current
      (skipAlnumFwd t.current (skipNonAlnumFwd t.current t.cursor))
      ≤ (t.current.length : Int)
    have d1 := skipNonAlnumFwd_le_len t.current t.cursor hlen
    have d2 := skipAlnumFwd_le_len t.current (skipNonAlnumFwd t.current t.cursor) d1
    exact skipNonAlnumFwd_le_len t.current
      (skipAlnumFwd t.current (skipNonAlnumFwd t.current t.cursor)) d2

theorem fw_cursor_exit (t : LLState) :
    (ll_forward_word t).2.cursor = t.cursor ∨
    byteAt t.current ((ll_forward_word t).2.cursor) = 0 ∨
    llIsAlnum (byteAt t.current ((ll_forward_word t).2.cursor)) = true := by
  unfold ll_forward_word
  split
  · left
    rfl
  · right
    exact skipNonAlnumFwd_exit t.current
      (skipAlnumFwd t.current (skipNonAlnumFwd t.current t.cursor))

theorem bw_cursor_ge (t : LLState) (h0 : 0 ≤ t.cursor) :
    0 ≤ (ll_backward_word t).2.cursor := by
  unfold ll_backward_word
  split
  · exact h0
  · show (0 : Int) ≤
      skipAlnumBack t.current (skipNonAlnumBack t.current (t.cursor - 1)) + 1
    have hp1 := skipNonAlnumBack_ge t.current (t.cursor - 1) (by omega)
    have hp2 := skipAlnumBack_ge t.current
      (skipNonAlnumBack t.current (t.cursor - 1)) hp1
    omega

theorem bw_cursor_le (t : LLState) : (ll_backward_word t).2.cursor ≤ t.cursor ∨
    (ll_backward_word t).2.cursor = t.cursor := by
  unfold ll_backward_word
  split
  · right
    rfl
  · left
    show skipAlnumBack t.current (skipNonAlnumBack t.current (t.cursor - 1)) + 1
      ≤ t.cursor
    have hp1 := skipNonAlnumBack_le t.current (t.cursor - 1)
    have hp2 := skipAlnumBack_le t.current (skipNonAlnumBack t.current (t.cursor - 1))
    omega

theorem inv_backward_delete_char {s : LLState} (hwfl : WFL s.current)
    (hinv : InvC s) : InvC (ll_backward_delete_char s).2 := by
  have h1 : InvC (ll_backward_char s).2 := inv_backward_char hwfl.1 hinv
  have hcur : (ll_backward_char s).2.current = s.current := bc_current s
  unfold ll_backward_delete_char
  rcases hE : ll_backward_char s with ⟨r1, s1⟩
  rw [hE] at h1 hcur
  dsimp only
  split
  · exact h1
  · have hw1 : WFL s1.current := by
      rw [hcur]
      exact hwfl
    have h2 : InvC (ll_delete_char s1).2 := inv_delete_char hw1 h1
    rcases hE2 : ll_delete_char s1 with ⟨r2, s2⟩
    rw [hE2] at h2
    dsimp only
    split
    · exact h2
    · exact h2

theorem inv_forward_kill_line {s : LLState} (hwfl : WFL s.current)
    (hinv : InvC s) : InvC (ll_forward_kill_line s).2 := by
  obtain ⟨hwf, hnul⟩ := hwfl
  obtain ⟨h0, hlen, hnc⟩ := hinv
  unfold ll_forward_kill_line
  split
  · exact ⟨h0, hlen, hnc⟩
  · dsimp only
    rw [pop_line_cursor, pop_line_buffer_of_noNul hnul]
    unfold InvC
    refine ⟨?_, ?_, ?_⟩
    · show (0 : Int) ≤ s.cursor
      exact h0
    · show s.cursor ≤ ((listErase s.current s.cursor.toNat
        (s.current.length - s.cursor.toNat)).length : Int)
      rw [listErase_length (by omega)]
      omega
    · show isCont (byteAt (listErase s.current s.cursor.toNat
        (s.current.length - s.cursor.toNat)) s.cursor) = false
      have hL : ((listErase s.current s.cursor.toNat
          (s.current.length - s.cursor.toNat)).length : Int) ≤ s.cursor := by
        rw [listErase_length (by omega)]
        omega
      rw [byteAt_of_le_length hL]
      exact isCont_zero

theorem inv_backward_kill_line {s : LLState} (hwfl : WFL s.current)
    (hinv : InvC s) : InvC (ll_backward_kill_line s).2 := by
  obtain ⟨hwf, hnul⟩ := hwfl
  obtain ⟨h0, hlen, hnc⟩ := hinv
  unfold ll_backward_kill_line
  split
  · exact ⟨h0, hlen, hnc⟩
  · dsimp only
    rw [pop_line_cursor, pop_line_buffer_of_noNul hnul]
    unfold InvC
    refine ⟨le_refl 0, ?_, ?_⟩
    · show (0 : Int) ≤ ((listErase s.current 0 s.cursor.toNat).length : Int)
      exact Int.natCast_nonneg _
    · show isCont (byteAt (listErase s.current 0 s.cursor.toNat) 0) = false
      have hb0 : byteAt (listErase s.current 0 s.cursor.toNat) 0
          = (listErase s.current 0 s.cursor.toNat).getD 0 0 := by
        simp [byteAt]
      rw [hb0, listErase_getD_at (Nat.zero_le _), Nat.zero_add,
        ← byteAt_of_nonneg h0]
      exact hnc

theorem inv_forward_kill_word {s : LLState} (hwfl : WFL s.current)
    (hinv : InvC s) : InvC (ll_forward_kill_word s).2 := by
  obtain ⟨hwf, hnul⟩ := hwfl
  obtain ⟨h0, hlen, hnc⟩ := hinv
  unfold ll_forward_kill_word
  split
  · exact ⟨h0, hlen, hnc⟩
  · dsimp only
    have hplb : (pop_line s).buffer = s.current := pop_line_buffer_of_noNul hnul
    have hplcur : (pop_line s).current = s.current := pop_line_current_of_noNul hnul
    have hplc : (pop_line s).cursor = s.cursor := pop_line_cursor s
    obtain ⟨hfb, hfv, hfc, hfl2, hfh, hfcur⟩ := fw_fields (pop_line s)
    have hge := fw_cursor_ge (pop_line s) (by rw [hplc]; exact h0)
    have hle2 := fw_cursor_le_len (pop_line s) (by rw [hplc, hplcur]; exact hlen)
    have hexit := fw_cursor_exit (pop_line s)
    rw [hplc] at hge hexit
    rw [hplcur] at hle2 hexit
    rw [hfb, hplb, hplc]
    unfold InvC
    refine ⟨?_, ?_, ?_⟩
    · show (0 : Int) ≤ s.cursor
      exact h0
    · show s.cursor ≤ ((listErase s.current s.cursor.toNat
        (((ll_forward_word (pop_line s)).2.cursor - s.cursor).toNat)).length : Int)
      rw [listErase_length (by omega)]
      omega
    · show isCont (byteAt (listErase s.current s.cursor.toNat
        (((ll_forward_word (pop_line s)).2.cursor - s.cursor).toNat)) s.cursor) = false
      rw [byteAt_of_nonneg h0, listErase_getD_at (by omega)]
      have hidx : s.cursor.toNat + ((ll_forward_word (pop_line s)).2.cursor - s.cursor).toNat
          = ((ll_forward_word (pop_line s)).2.cursor).toNat := by
        omega
      rw [hidx]
      rcases hexit with he | hz | ha
      · rw [he, ← byteAt_of_nonneg h0]
        exact hnc
      · have h0E : (0 : Int) ≤ (ll_forward_word (pop_line s)).2.cursor := by omega
        rw [← byteAt_of_nonneg h0E, hz]
        exact isCont_zero
      · have h0E : (0 : Int) ≤ (ll_forward_word (pop_line s)).2.cursor := by omega
        rw [← byteAt_of_nonneg h0E]
        exact llIsAlnum_not_cont ha

theorem inv_backward_kill_word {s : LLState} (hwfl : WFL s.current)
    (hinv : InvC s) : InvC (ll_backward_kill_word s).2 := by
  obtain ⟨hwf, hnul⟩ := hwfl
  obtain ⟨h0, hlen, hnc⟩ := hinv
  unfold ll_backward_kill_word
  split
  · exact ⟨h0, hlen, hnc⟩
  · dsimp only
    have hplb : (pop_line s).buffer = s.current := pop_line_buffer_of_noNul hnul
    have hplc : (pop_line s).cursor = s.cursor := pop_line_cursor s
    obtain ⟨hbb, hbv, hbc, hbl2, hbh, hbcur⟩ := bw_fields (pop_line s)
    have hge := bw_cursor_ge (pop_line s) (by rw [hplc]; exact h0)
    have hle2 : (ll_backward_word (pop_line s)).2.cursor ≤ s.cursor := by
      rcases bw_cursor_le (pop_line s) with h | h
      · rw [hplc] at h
        exact h
      · rw [hplc] at h
        omega
    rw [hbb, hplb, hplc]
    unfold InvC
    refine ⟨?_, ?_, ?_⟩
    · show (0 : Int) ≤ (ll_backward_word (pop_line s)).2.cursor
      exact hge
    · show (ll_backward_word (pop_line s)).2.cursor
        ≤ ((listErase s.current ((ll_backward_word (pop_line s)).2.cursor).toNat
          ((s.cursor - (ll_backward_word (pop_line s)).2.cursor).toNat)).length : Int)
      rw [listErase_length (by omega)]
      omega
    · show isCont (byteAt (listErase s.current
        ((ll_backward_word (pop_line s)).2.cursor).toNat
        ((s.cursor - (ll_backward_word (pop_line s)).2.cursor).toNat))
        ((ll_backward_word (pop_line s)).2.cursor)) = false
      rw [byteAt_of_nonneg hge, listErase_getD_at (by omega)]
      have hidx : ((ll_backward_word (pop_line s)).2.cursor).toNat
          + (s.cursor - (ll_backward_word (pop_line s)).2.cursor).toNat
          = s.cursor.toNat := by
        omega
      rw [hidx, ← byteAt_of_nonneg h0]
      exact hnc

theorem inv_insert_str {s : LLState} (hnul : ∀ b ∈ s.current, b ≠ 0)
    (hinv : InvC s) (xs : List Nat) : InvC (insert_str s xs) := by
  obtain ⟨h0, hlen, hnc⟩ := hinv
  unfold insert_str
  dsimp only
  rw [pop_line_cursor, pop_line_buffer_of_noNul hnul]
  unfold InvC
  refine ⟨?_, ?_, ?_⟩
  · show (0 : Int) ≤ s.cursor + (xs.length : Int)
    omega
  · show s.cursor + (xs.length : Int)
      ≤ ((listInsert s.current s.cursor.toNat xs).length : Int)
    rw [listInsert_length (by omega)]
    push_cast
    omega
  · show isCont (byteAt (listInsert s.current s.cursor.toNat xs)
      (s.cursor + (xs.length : Int))) = false
    have h0' : (0 : Int) ≤ s.cursor + (xs.length : Int) := by omega
    rw [byteAt_of_nonneg h0']
    have hidx : (s.cursor + (xs.length : Int)).toNat = s.cursor.toNat + xs.length := by
      omega
    rw [hidx, listInsert_getD_at (by omega), ← byteAt_of_nonneg h0]
    exact hnc

theorem inv_yank {s : LLState} (hnul : ∀ b ∈ s.current, b ≠ 0)
    (hinv : InvC s) : InvC (ll_yank s).2 := by
  unfold ll_yank
  split
  · exact inv_insert_str hnul hinv s.clipboard
  · exact hinv

theorem inv_insert_char {s : LLState} (hnul : ∀ b ∈ s.current, b ≠ 0)
    (hinv : InvC s) (c : Nat) : InvC (insert_char s c) := by
  obtain ⟨h0, hlen, hnc⟩ := hinv
  unfold insert_char
  dsimp only
  rw [pop_line_cursor, pop_line_buffer_of_noNul hnul]
  unfold InvC
  refine ⟨?_, ?_, ?_⟩
  · show (0 : Int) ≤ s.cursor + 1
    omega
  · show s.cursor + 1 ≤ ((listInsert s.current s.cursor.toNat [c]).length : Int)
    rw [listInsert_length (by omega)]
    push_cast
    simp
    omega
  · show isCont (byteAt (listInsert s.current s.cursor.toNat [c]) (s.cursor + 1)) = false
    have h0' : (0 : Int) ≤ s.cursor + 1 := by omega
    rw [byteAt_of_nonneg h0']
    have hidx : (s.cursor + 1).toNat = s.cursor.toNat + [c].length := by
      simp
      omega
    rw [hidx, listInsert_getD_at (by omega), ← byteAt_of_nonneg h0]
    exact hnc

theorem inv_accept_line {s : LLState} (hnul : ∀ b ∈ s.current, b ≠ 0)
    (hinv : InvC s) : InvC (ll_accept_line s).2 := by
  obtain ⟨h0, hlen, hnc⟩ := hinv
  have hb : (pop_line s).buffer = s.current := pop_line_buffer_of_noNul hnul
  unfold ll_accept_line
  dsimp only
  generalize ll_history_push (pop_line s).history (pop_line s).histMax
      (List.take (cstrlen (pop_line s).current) (pop_line s).current) = X
  unfold InvC
  have hcur : (({ pop_line s with history := X } : LLState)).current = s.current := by
    rw [current_of_viewing_none
      (show ({ pop_line s with history := X } : LLState).viewing = none from
        pop_line_viewing s)]
    exact hb
  refine ⟨?_, ?_, ?_⟩
  · show (0 : Int) ≤ (pop_line s).cursor
    rw [pop_line_cursor]
    exact h0
  · rw [hcur]
    show (pop_line s).cursor ≤ (s.current.length : Int)
    rw [pop_line_cursor]
    exact hlen
  · rw [hcur]
    show isCont (byteAt s.current (pop_line s).cursor) = false
    rw [pop_line_cursor]
    exact hnc

theorem pair_state {o1 : List Nat} {p : Int × LLState} {out : List Nat}
    {r : Int} {s2 : LLState} (h : (o1, some p) = (out, some (r, s2))) :
    s2 = p.2 := by
  have h2 := congrArg Prod.snd h
  dsimp only at h2
  injection h2 with h3
  rw [h3]

/-- C2 (amended): for every command that returns (does not exit the
process), if before the command the current line is well-formed UTF-8 with
no embedded NUL and the cursor invariant holds — `0 ≤ cursor ≤
len(current)` with the byte at `cursor` not a UTF-8 continuation byte —
then the invariant holds again after the command.  (As stated, without the
well-formedness proviso, the claim is false: see the counterexample.) -/
theorem C2_cursor_invariant (c : LLCmd) (inp : Nat) (s : LLState)
    (hwfl : WFL s.current) (hinv : InvC s) (out : List Nat) (r : Int)
    (s2 : LLState) (hex : exec c inp s = (out, some (r, s2))) : InvC s2 := by
  cases c <;> simp only [exec] at hex
  case beginning_of_line =>
    rw [pair_state hex]
    exact inv_beginning_of_line hwfl.1
  case backward_char =>
    rw [pair_state hex]
    exact inv_backward_char hwfl.1 hinv
  case terminate =>
    simp [ll_terminate, Prod.ext_iff] at hex
  case end_of_file =>
    unfold ll_end_of_file at hex
    split at hex
    · simp [ll_terminate, Prod.ext_iff] at hex
    · rw [pair_state hex]
      exact inv_delete_char hwfl hinv
  case end_of_line =>
    rw [pair_state hex]
    exact inv_end_of_line s
  case forward_char =>
    rw [pair_state hex]
    exact inv_forward_char hinv
  case backward_delete_char =>
    rw [pair_state hex]
    exact inv_backward_delete_char hwfl hinv
  case accept_line =>
    rw [pair_state hex]
    exact inv_accept_line hwfl.2 hinv
  case forward_kill_line =>
    rw [pair_state hex]
    exact inv_forward_kill_line hwfl hinv
  case forward_kill_word =>
    rw [pair_state hex]
    exact inv_forward_kill_word hwfl hinv
  case next_history =>
    rw [pair_state hex]
    exact inv_next_history hinv
  case previous_history =>
    rw [pair_state hex]
    exact inv_previous_history hinv
  case backward_kill_line =>
    rw [pair_state hex]
    exact inv_backward_kill_line hwfl hinv
  case verbatim =>
    rw [pair_state hex]
    exact @inv_insert_char
      { s with fmt_cursor := (reprint s.current s.cursor s.fmt_cursor s.fmt_len).2.1,
               fmt_len := (reprint s.current s.cursor s.fmt_cursor s.fmt_len).2.2 }
      hwfl.2 hinv inp
  case backward_kill_word =>
    rw [pair_state hex]
    exact inv_backward_kill_word hwfl hinv
  case yank =>
    rw [pair_state hex]
    exact inv_yank hwfl.2 hinv
  case backward_word =>
    rw [pair_state hex]
    exact inv_backward_word hwfl.1 hinv
  case forward_word =>
    rw [pair_state hex]
    exact inv_forward_word hinv
  case delete_char =>
    rw [pair_state hex]
    exact inv_delete_char hwfl hinv
  case beginning_of_history =>
    rw [pair_state hex]
    exact inv_beginning_of_history s
  case end_of_history =>
    rw [pair_state hex]
    exact inv_end_of_history s

theorem pair_r {o1 : List Nat} {r0 : Int} {st : LLState} {out : List Nat}
    {r : Int} {s2 : LLState} (h : (o1, some (r0, st)) = (out, some (r, s2))) :
    r = r0 ∧ s2 = st ∧ out = o1 := by
  have ho := congrArg Prod.fst h
  have hs := congrArg Prod.snd h
  dsimp only at ho hs
  injection hs with hp
  injection hp with hr hst
  exact ⟨hr.symm, hst.symm, ho.symm⟩

theorem byteAt_ne_zero_of_noNul {l : List Nat} {i : Int}
    (hnul : ∀ b ∈ l, b ≠ 0) (h0 : 0 ≤ i) (hlt : i < (l.length : Int)) :
    byteAt l i ≠ 0 := by
  rw [byteAt_of_nonneg h0]
  have hloc : i.toNat < l.length := by omega
  rw [List.getD_eq_getElem l 0 hloc]
  exact hnul _ (List.getElem_mem _)

theorem handleFinal_of_refuse {c : LLCmd} {inp : Nat} {s : LLState}
    {out : List Nat} {r : Int} {s2 : LLState}
    (hex : exec c inp s = (out, some (r, s2))) (hout : out = [])
    (hs2 : s2 = s) (hr : r < 0) :
    handleFinal c inp s = ([7], some (0, { s with lastCommand := some c })) := by
  unfold handleFinal
  rw [hex]
  dsimp only
  rw [if_pos hr, hout, hs2]
  rw [List.nil_append]

/-- C6 (amended): when a command refuses (returns a negative value) from a
state whose current line is well-formed NUL-free UTF-8 with `0 ≤ cursor ≤
len`, `handle_character` emits exactly one BEL byte, the whole editor state
is unchanged, and `last_command` is still set to the refused command.
(Without the proviso the claim fails: `ll_backward_delete_char` can move
the cursor and still refuse when the line holds an embedded NUL — see the
counterexample.) -/
theorem C6_refusal_bel_frame (c : LLCmd) (inp : Nat) (s : LLState)
    (hwfl : WFL s.current) (h0 : 0 ≤ s.cursor)
    (hlen : s.cursor ≤ (s.current.length : Int)) (out : List Nat) (r : Int)
    (s2 : LLState) (hex : exec c inp s = (out, some (r, s2))) (hneg : r < 0) :
    handleFinal c inp s = ([7], some (0, { s with lastCommand := some c })) := by
  have hframe : out = [] ∧ s2 = s := by
    cases c <;> simp only [exec] at hex
    case beginning_of_line =>
      obtain ⟨hr, _, _⟩ := pair_r hex
      exfalso
      omega
    case backward_char =>
      unfold ll_backward_char at hex
      split at hex
      · obtain ⟨hr, hs2, hout⟩ := pair_r hex
        exact ⟨hout, hs2⟩
      · obtain ⟨hr, _, _⟩ := pair_r hex
        exfalso
        omega
    case terminate =>
      simp [ll_terminate, Prod.ext_iff] at hex
    case end_of_file =>
      unfold ll_end_of_file at hex
      split at hex
      · simp [ll_terminate, Prod.ext_iff] at hex
      · unfold ll_delete_char at hex
        split at hex
        · obtain ⟨hr, hs2, hout⟩ := pair_r hex
          exact ⟨hout, hs2⟩
        · dsimp only at hex
          obtain ⟨hr, _, _⟩ := pair_r hex
          exfalso
          omega
    case end_of_line =>
      obtain ⟨hr, _, _⟩ := pair_r hex
      exfalso
      omega
    case forward_char =>
      unfold ll_forward_char at hex
      split at hex
      · obtain ⟨hr, hs2, hout⟩ := pair_r hex
        exact ⟨hout, hs2⟩
      · obtain ⟨hr, _, _⟩ := pair_r hex
        exfalso
        omega
    case backward_delete_char =>
      unfold ll_backward_delete_char at hex
      rcases hbcE : ll_backward_char s with ⟨r1, s1⟩
      rw [hbcE] at hex
      dsimp only at hex
      split at hex
      · rename_i hr1
        obtain ⟨hr, hs2, hout⟩ := pair_r hex
        unfold ll_backward_char at hbcE
        split at hbcE
        · injection hbcE with hb1 hb2
          exact ⟨hout, by rw [hs2, ← hb2]⟩
        · injection hbcE with hb1 hb2
          exfalso
          exact hr1 (by rw [← hb1])
      · rename_i hr1
        rw [not_not] at hr1
        unfold ll_backward_char at hbcE
        split at hbcE
        · injection hbcE with hb1 hb2
          exfalso
          rw [← hb1] at hr1
          norm_num at hr1
        · rename_i hc0
          injection hbcE with hb1 hb2
          have hmb0 : 0 ≤ moveBack s.current (s.cursor - 1) :=
            moveBack_nonneg hwfl.1 _ (by omega)
          have hmble := moveBack_le s.current (s.cursor - 1)
          have hbne : byteAt s.current (moveBack s.current (s.cursor - 1)) ≠ 0 :=
            byteAt_ne_zero_of_noNul hwfl.2 hmb0 (by omega)
          have hs1cur : s1.current = s.current := by
            rw [← hb2]
            exact current_set_cursor s _
          have hs1c : s1.cursor = moveBack s.current (s.cursor - 1) := by
            rw [← hb2]
          rcases hdcE : ll_delete_char s1 with ⟨r2, s2x⟩
          rw [hdcE] at hex
          dsimp only at hex
          unfold ll_delete_char at hdcE
          rw [hs1cur, hs1c, if_neg hbne] at hdcE
          injection hdcE with hd1 hd2
          split at hex
          · rename_i hr2
            exfalso
            exact hr2 (by rw [← hd1])
          · obtain ⟨hr, _, _⟩ := pair_r hex
            exfalso
            omega
    case accept_line =>
      obtain ⟨hr, _, _⟩ := pair_r hex
      exfalso
      omega
    case forward_kill_line =>
      unfold ll_forward_kill_line at hex
      split at hex
      · obtain ⟨hr, _, _⟩ := pair_r hex
        exfalso
        omega
      · dsimp only at hex
        obtain ⟨hr, _, _⟩ := pair_r hex
        exfalso
        omega
    case forward_kill_word =>
      unfold ll_forward_kill_word at hex
      split at hex
      · obtain ⟨hr, _, _⟩ := pair_r hex
        exfalso
        omega
      · dsimp only at hex
        obtain ⟨hr, _, _⟩ := pair_r hex
        exfalso
        omega
    case next_history =>
      unfold ll_next_history at hex
      split at hex
      · obtain ⟨hr, hs2, hout⟩ := pair_r hex
        exact ⟨hout, hs2⟩
      · dsimp only at hex
        split at hex
        · obtain ⟨hr, _, _⟩ := pair_r hex
          exfalso
          omega
        · obtain ⟨hr, _, _⟩ := pair_r hex
          exfalso
          omega
    case previous_history =>
      unfold ll_previous_history at hex
      split at hex
      · obtain ⟨hr, hs2, hout⟩ := pair_r hex
        exact ⟨hout, hs2⟩
      · dsimp only at hex
        obtain ⟨hr, _, _⟩ := pair_r hex
        exfalso
        omega
    case backward_kill_line =>
      unfold ll_backward_kill_line at hex
      split at hex
      · obtain ⟨hr, _, _⟩ := pair_r hex
        exfalso
        omega
      · dsimp only at hex
        obtain ⟨hr, _, _⟩ := pair_r hex
        exfalso
        omega
    case verbatim =>
      unfold ll_verbatim at hex
      dsimp only at hex
      obtain ⟨hr, _, _⟩ := pair_r hex
      exfalso
      omega
    case backward_kill_word =>
      unfold ll_backward_kill_word at hex
      split at hex
      · obtain ⟨hr, _, _⟩ := pair_r hex
        exfalso
        omega
      · dsimp only at hex
        obtain ⟨hr, _, _⟩ := pair_r hex
        exfalso
        omega
    case yank =>
      unfold ll_yank at hex
      split at hex
      · obtain ⟨hr, _, _⟩ := pair_r hex
        exfalso
        omega
      · obtain ⟨hr, _, _⟩ := pair_r hex
        exfalso
        omega
    case backward_word =>
      unfold ll_backward_word at hex
      split at hex
      · obtain ⟨hr, hs2, hout⟩ := pair_r hex
        exact ⟨hout, hs2⟩
      · dsimp only at hex
        obtain ⟨hr, _, _⟩ := pair_r hex
        exfalso
        omega
    case forward_word =>
      unfold ll_forward_word at hex
      split at hex
      · obtain ⟨hr, hs2, hout⟩ := pair_r hex
        exact ⟨hout, hs2⟩
      · dsimp only at hex
        obtain ⟨hr, _, _⟩ := pair_r hex
        exfalso
        omega
    case delete_char =>
      unfold ll_delete_char at hex
      split at hex
      · obtain ⟨hr, hs2, hout⟩ := pair_r hex
        exact ⟨hout, hs2⟩
      · dsimp only at hex
        obtain ⟨hr, _, _⟩ := pair_r hex
        exfalso
        omega
    case beginning_of_history =>
      unfold ll_beginning_of_history at hex
      obtain ⟨hr, _, _⟩ := pair_r hex
      exfalso
      omega
    case end_of_history =>
      obtain ⟨hr, _, _⟩ := pair_r hex
      exfalso
      omega
  exact handleFinal_of_refuse hex hframe.1 hframe.2 hneg

/-- C5 (amended): with no intervening state change the second render
recomputes exactly the same `fmt_cursor` and `fmt_len` and repaints the
same image in place — `fmt_cursor` backspaces, the identical line image,
no padding, and `fmt_len - fmt_cursor` backspaces — a terminal no-op, but
not an empty byte sequence in general (the original claim of zero bytes is
refuted by the counterexample). -/
theorem C5_render_idempotent (cur : List Nat) (cursor : Int) (fc0 fl0 : Nat) :
    (reprint cur cursor (reprint cur cursor fc0 fl0).2.1
        (reprint cur cursor fc0 fl0).2.2).2.1 = (reprint cur cursor fc0 fl0).2.1 ∧
    (reprint cur cursor (reprint cur cursor fc0 fl0).2.1
        (reprint cur cursor fc0 fl0).2.2).2.2 = (reprint cur cursor fc0 fl0).2.2 ∧
    (reprint cur cursor (reprint cur cursor fc0 fl0).2.1
        (reprint cur cursor fc0 fl0).2.2).1
      = List.replicate (reprint cur cursor fc0 fl0).2.1 8
          ++ (scanLine cursor cur 0 0).1
          ++ List.replicate ((reprint cur cursor fc0 fl0).2.2
               - (reprint cur cursor fc0 fl0).2.1) 8 := by
  unfold reprint
  rcases hsc : scanLine cursor cur 0 0 with ⟨img, cols, fcOpt⟩
  dsimp only
  refine ⟨rfl, rfl, ?_⟩
  rw [Nat.sub_self, Nat.max_self]
  simp

theorem pop_line_of_viewing_none {s : LLState} (h : s.viewing = none) :
    pop_line s = s := by
  unfold pop_line
  split
  · rfl
  · rename_i i hi
    rw [h] at hi
    cases hi

/-- C5 counterexample: with the one-byte line "a" and the cursor after it,
the render immediately following a render emits a backspace and the byte
`a` again — two bytes, not zero, refuting the claim that the second render
emits zero bytes. -/
theorem C5_counterexample :
    (reprint [97] 1 (reprint [97] 1 0 0).2.1 (reprint [97] 1 0 0).2.2).1 = [8, 97] ∧
    (reprint [97] 1 (reprint [97] 1 0 0).2.1 (reprint [97] 1 0 0).2.2).1
      ≠ ([] : List Nat) := by
  have hs : scanLine 1 [97] 0 0 = ([97], 1, none) := by
    simp [scanLine, byteAt, cstrlen]
    decide
  constructor
  · simp [reprint, hs]
  · simp [reprint, hs]

/-- C7: evaluation of the renderer's bad-UTF-8 branch at the malformed
byte `0x80` (with `char` signed, as on the x86 unix target): the source
emits `\x` and then `'0' + ((signed 0x80) >> 4) = 0x28` (the character
`(`) for the high digit — not `'0' + 8 = 0x38` (`8`) as the spec's
`'0' + high-nibble` rule requires — while the low digit `'0' + 0 = 0x30`
and the 4-column accounting match the claim. -/
theorem C7_escape_digits :
    scanLine 0 [128] 0 0 = ([92, 120, 40, 48], 4, some 0) ∧
    escHi 128 = 40 ∧ 48 + (128 / 16 : Nat) = 56 ∧ escLo 128 = 48 := by
  refine ⟨?_, by decide, by decide, by decide⟩
  simp [scanLine, byteAt, cstrlen, escHi, escLo, signedChar]
  decide

/-- C3 (amended): `ll_end_of_file` behaves as `ll_terminate` — whose whole
terminal output is the single newline byte — exactly when the *current
line* (`strlen(cl.current)`) is empty, and as `ll_delete_char` otherwise.
The original claim's "buffer empty" is wrong when a history entry is being
viewed: see the counterexample. -/
theorem C3_end_of_file (s : LLState) (inp : Nat) :
    (cstrlen s.current = 0 → exec LLCmd.end_of_file inp s = ([10], none)) ∧
    (cstrlen s.current ≠ 0 →
      exec LLCmd.end_of_file inp s = ([], some (ll_delete_char s))) := by
  constructor
  · intro h
    simp only [exec]
    unfold ll_end_of_file
    rw [if_pos h]
    rfl
  · intro h
    simp only [exec]
    unfold ll_end_of_file
    rw [if_neg h]

theorem C3_witness :
    exec LLCmd.end_of_file 0 (readInit [] 10) = ([10], none) ∧
    exec LLCmd.end_of_file 0
        { buffer := [97], clipboard := [], cursor := 0, fmt_cursor := 0,
          fmt_len := 0, focus := 0, viewing := none, history := [],
          histMax := 10, lastCommand := none }
      = ([], some (ll_delete_char
        { buffer := [97], clipboard := [], cursor := 0, fmt_cursor := 0,
          fmt_len := 0, focus := 0, viewing := none, history := [],
          histMax := 10, lastCommand := none })) :=
  ⟨(C3_end_of_file (readInit [] 10) 0).1 (by decide),
   (C3_end_of_file _ 0).2 (by decide)⟩

/-- C3 counterexample: viewing the (non-empty) sole history entry while
the edit buffer is empty — reached from a fresh read by one
previous-history — `end-of-file` does not terminate (it takes the
delete-char path, which here refuses), although the buffer is empty. -/
theorem C3_counterexample :
    (ll_previous_history (readInit [[97]] 10)).2.buffer = [] ∧
    exec LLCmd.end_of_file 0 (ll_previous_history (readInit [[97]] 10)).2
      ≠ ([10], none) := by
  constructor
  · decide
  · decide

/-- C4 (amended): from a state editing the buffer (`current` aliasing it),
`ll_delete_char` refuses (negative return, state unchanged) at the
terminator; when the byte at the cursor is ASCII or a valid 2–5-byte lead
whose whole sequence fits in the line, it removes exactly `encLen` bytes
starting at the cursor and leaves the rest of the line unchanged; when the
byte at the cursor matches no branch of the lead ladder (a continuation
byte or `0xFC..0xFF`), it removes nothing and still returns 0 — the
original claim's unconditional "removes the 1–5 byte codepoint" fails
there, see the counterexample. -/
theorem C4_delete_char (s : LLState) (hv : s.viewing = none) (_h0 : 0 ≤ s.cursor) :
    (byteAt s.current s.cursor = 0 → ll_delete_char s = (-1, s)) ∧
    (byteAt s.current s.cursor ≠ 0 → encLen (byteAt s.current s.cursor) ≠ 0 →
      s.cursor.toNat + encLen (byteAt s.current s.cursor) ≤ s.current.length →
      (ll_delete_char s).1 = 0 ∧
      (ll_delete_char s).2.current
        = s.current.take s.cursor.toNat
            ++ s.current.drop (s.cursor.toNat + encLen (byteAt s.current s.cursor)) ∧
      (ll_delete_char s).2.current.length
        = s.current.length - encLen (byteAt s.current s.cursor)) ∧
    (byteAt s.current s.cursor ≠ 0 → encLen (byteAt s.current s.cursor) = 0 →
      (ll_delete_char s).1 = 0 ∧ (ll_delete_char s).2.current = s.current) := by
  have hcur : s.current = s.buffer := current_of_viewing_none hv
  refine ⟨?_, ?_, ?_⟩
  · intro h
    unfold ll_delete_char
    rw [if_pos h]
  · intro hb hn hfit
    unfold ll_delete_char
    rw [if_neg hb]
    dsimp only
    rw [pop_line_of_viewing_none hv, if_neg hn]
    refine ⟨rfl, ?_, ?_⟩
    · show listErase s.buffer s.cursor.toNat (encLen (byteAt s.current s.cursor))
        = s.current.take s.cursor.toNat
            ++ s.current.drop (s.cursor.toNat + encLen (byteAt s.current s.cursor))
      rw [hcur]
      rfl
    · show (listErase s.buffer s.cursor.toNat
          (encLen (byteAt s.current s.cursor))).length
        = s.current.length - encLen (byteAt s.current s.cursor)
      rw [hcur] at hfit ⊢
      rw [listErase_length (by omega)]
      omega
  · intro hb hn
    unfold ll_delete_char
    rw [if_neg hb]
    dsimp only
    rw [pop_line_of_viewing_none hv, if_pos hn]
    refine ⟨rfl, ?_⟩
    show s.buffer = s.current
    exact hcur.symm

theorem C4_witness :
    (ll_delete_char
        { buffer := [104, 195, 169], clipboard := [], cursor := 1,
          fmt_cursor := 0, fmt_len := 0, focus := 0, viewing := none,
          history := [], histMax := 10, lastCommand := none }).1 = 0 ∧
    (ll_delete_char
        { buffer := [104, 195, 169], clipboard := [], cursor := 1,
          fmt_cursor := 0, fmt_len := 0, focus := 0, viewing := none,
          history := [], histMax := 10, lastCommand := none }).2.current
      = [104] := by
  have h := (C4_delete_char
    { buffer := [104, 195, 169], clipboard := [], cursor := 1,
      fmt_cursor := 0, fmt_len := 0, focus := 0, viewing := none,
      history := [], histMax := 10, lastCommand := none }
    (by decide) (by decide)).2.1 (by decide) (by decide) (by decide)
  refine ⟨h.1, ?_⟩
  rw [h.2.1]
  decide

/-- C4 counterexample: with the (reachable, literally-inserted) lone
continuation byte `0x80` as the line and the cursor on it, `ll_delete_char`
matches no branch of the lead ladder: it removes nothing and returns 0,
refuting "removes exactly the 1–5 byte codepoint starting at cursor". -/
theorem C4_counterexample :
    (ll_delete_char
        { buffer := [128], clipboard := [], cursor := 0, fmt_cursor := 0,
          fmt_len := 0, focus := 0, viewing := none, history := [],
          histMax := 10, lastCommand := none }).2.buffer = [128] ∧
    (ll_delete_char
        { buffer := [128], clipboard := [], cursor := 0, fmt_cursor := 0,
          fmt_len := 0, focus := 0, viewing := none, history := [],
          histMax := 10, lastCommand := none }).1 = 0 := by
  constructor
  · decide
  · decide

/-- C1 (amended): kill chaining.  With `current` aliasing the buffer and a
non-empty kill span: `ll_forward_kill_word` appends to the clipboard when
the previous command was `ll_forward_kill_word` and replaces it otherwise;
`ll_backward_kill_word` prepends when the previous command was
`ll_backward_kill_word` and replaces otherwise; and — contrary to the
original claim that line kills always replace — `ll_forward_kill_line`
appends when the previous command was `ll_forward_kill_word`, and
`ll_backward_kill_line` prepends when the previous command was
`ll_backward_kill_word`, each replacing otherwise. -/
theorem C1_kill_chaining (s : LLState) (hv : s.viewing = none) :
    (byteAt s.current s.cursor ≠ 0 →
      (ll_forward_kill_line s).2.clipboard
        = (if s.lastCommand = some LLCmd.forward_kill_word
           then s.clipboard ++ s.buffer.drop s.cursor.toNat
           else s.buffer.drop s.cursor.toNat)) ∧
    (s.cursor ≠ 0 →
      (ll_backward_kill_line s).2.clipboard
        = (if s.lastCommand = some LLCmd.backward_kill_word
           then s.buffer.take s.cursor.toNat ++ s.clipboard
           else s.buffer.take s.cursor.toNat)) ∧
    (byteAt s.current s.cursor ≠ 0 →
      (ll_forward_kill_word s).2.clipboard
        = (if s.lastCommand = some LLCmd.forward_kill_word
           then s.clipboard ++ (s.buffer.drop s.cursor.toNat).take
                  (((ll_forward_word s).2.cursor - s.cursor).toNat)
           else (s.buffer.drop s.cursor.toNat).take
                  (((ll_forward_word s).2.cursor - s.cursor).toNat))) ∧
    (s.cursor ≠ 0 →
      (ll_backward_kill_word s).2.clipboard
        = (if s.lastCommand = some LLCmd.backward_kill_word
           then (s.buffer.drop ((ll_backward_word s).2.cursor).toNat).take
                  ((s.cursor - (ll_backward_word s).2.cursor).toNat) ++ s.clipboard
           else (s.buffer.drop ((ll_backward_word s).2.cursor).toNat).take
                  ((s.cursor - (ll_backward_word s).2.cursor).toNat))) := by
  refine ⟨?_, ?_, ?_, ?_⟩
  · intro hb
    unfold ll_forward_kill_line
    rw [if_neg hb]
    dsimp only
    rw [pop_line_of_viewing_none hv]
  · intro hc
    unfold ll_backward_kill_line
    rw [if_neg hc]
    dsimp only
    rw [pop_line_of_viewing_none hv]
  · intro hb
    unfold ll_forward_kill_word
    rw [if_neg hb]
    dsimp only
    rw [pop_line_of_viewing_none hv]
    obtain ⟨hfb, hfv, hfc, hfl2, hfh, hfcur⟩ := fw_fields s
    show (if (ll_forward_word s).2.lastCommand = some LLCmd.forward_kill_word
          then (ll_forward_word s).2.clipboard
                 ++ ((ll_forward_word s).2.buffer.drop s.cursor.toNat).take
                      (((ll_forward_word s).2.cursor - s.cursor).toNat)
          else ((ll_forward_word s).2.buffer.drop s.cursor.toNat).take
                 (((ll_forward_word s).2.cursor - s.cursor).toNat)) = _
    rw [hfb, hfc, hfl2]
  · intro hc
    unfold ll_backward_kill_word
    rw [if_neg hc]
    dsimp only
    rw [pop_line_of_viewing_none hv]
    obtain ⟨hbb, hbv, hbc, hbl2, hbh, hbcur⟩ := bw_fields s
    show (if (ll_backward_word s).2.lastCommand = some LLCmd.backward_kill_word
          then ((ll_backward_word s).2.buffer.drop
                  ((ll_backward_word s).2.cursor).toNat).take
                 ((s.cursor - (ll_backward_word s).2.cursor).toNat)
                 ++ (ll_backward_word s).2.clipboard
          else ((ll_backward_word s).2.buffer.drop
                  ((ll_backward_word s).2.cursor).toNat).take
                 ((s.cursor - (ll_backward_word s).2.cursor).toNat)) = _
    rw [hbb, hbc, hbl2]

/-- C1 counterexample: with `last_command = ll_forward_kill_word`, line
"ab", cursor 0 and clipboard "X", `ll_forward_kill_line` *appends*: the
clipboard becomes "Xab", not the killed span "ab" — refuting "line kills
always replace the clipboard, regardless of the previous command". -/
theorem C1_counterexample :
    (ll_forward_kill_line
        { buffer := [97, 98], clipboard := [88], cursor := 0, fmt_cursor := 0,
          fmt_len := 0, focus := 0, viewing := none, history := [],
          histMax := 10,
          lastCommand := some LLCmd.forward_kill_word }).2.clipboard
      = [88, 97, 98] ∧
    (ll_forward_kill_line
        { buffer := [97, 98], clipboard := [88], cursor := 0, fmt_cursor := 0,
          fmt_len := 0, focus := 0, viewing := none, history := [],
          histMax := 10,
          lastCommand := some LLCmd.forward_kill_word }).2.clipboard
      ≠ [97, 98] := by
  constructor
  · decide
  · decide

theorem C1_witness :
    (ll_forward_kill_line
        { buffer := [97, 32, 98], clipboard := [99], cursor := 1,
          fmt_cursor := 0, fmt_len := 0, focus := 0, viewing := none,
          history := [], histMax := 10,
          lastCommand := some LLCmd.forward_kill_word }).2.clipboard
      = [99, 32, 98] ∧
    (ll_backward_kill_line
        { buffer := [97, 32, 98], clipboard := [99], cursor := 1,
          fmt_cursor := 0, fmt_len := 0, focus := 0, viewing := none,
          history := [], histMax := 10,
          lastCommand := some LLCmd.forward_kill_word }).2.clipboard
      = [97] ∧
    (ll_forward_kill_word
        { buffer := [97, 32, 98], clipboard := [99], cursor := 1,
          fmt_cursor := 0, fmt_len := 0, focus := 0, viewing := none,
          history := [], histMax := 10,
          lastCommand := some LLCmd.forward_kill_word }).2.clipboard
      = [99, 32, 98] ∧
    (ll_backward_kill_word
        { buffer := [97, 32, 98], clipboard := [99], cursor := 1,
          fmt_cursor := 0, fmt_len := 0, focus := 0, viewing := none,
          history := [], histMax := 10,
          lastCommand := some LLCmd.forward_kill_word }).2.clipboard
      = [97] := by
  have h := C1_kill_chaining
    { buffer := [97, 32, 98], clipboard := [99], cursor := 1,
      fmt_cursor := 0, fmt_len := 0, focus := 0, viewing := none,
      history := [], histMax := 10,
      lastCommand := some LLCmd.forward_kill_word } (by decide)
  refine ⟨?_, ?_, ?_, ?_⟩
  · rw [h.1 (by decide)]
    decide
  · rw [h.2.1 (by decide)]
    decide
  · rw [h.2.2.1 (by decide)]
    have hfw : (ll_forward_word
        { buffer := [97, 32, 98], clipboard := [99], cursor := 1,
          fmt_cursor := 0, fmt_len := 0, focus := 0, viewing := none,
          history := [], histMax := 10,
          lastCommand := some LLCmd.forward_kill_word }).2.cursor = 3 := by
      simp [ll_forward_word, skipNonAlnumFwd, skipAlnumFwd, byteAt, llIsAlnum,
        LLState.current]
    rw [hfw]
    decide
  · rw [h.2.2.2 (by decide)]
    have hbw : (ll_backward_word
        { buffer := [97, 32, 98], clipboard := [99], cursor := 1,
          fmt_cursor := 0, fmt_len := 0, focus := 0, viewing := none,
          history := [], histMax := 10,
          lastCommand := some LLCmd.forward_kill_word }).2.cursor = 0 := by
      simp [ll_backward_word, skipNonAlnumBack, skipAlnumBack, byteAt, llIsAlnum,
        LLState.current]
    rw [hbw]
    decide

/-- C9: a kill command whose span is empty — the forward kills with the
cursor at end of line, the backward kills with the cursor at 0 — returns 0
(success, so `handle_character` emits no BEL) and leaves the whole editor
state unchanged (the early return precedes the pop). -/
theorem C9_empty_kills (s : LLState) :
    (s.cursor = (s.current.length : Int) →
      ll_forward_kill_line s = (0, s) ∧ ll_forward_kill_word s = (0, s)) ∧
    (s.cursor = 0 →
      ll_backward_kill_line s = (0, s) ∧ ll_backward_kill_word s = (0, s)) := by
  constructor
  · intro h
    have hb : byteAt s.current s.cursor = 0 := byteAt_of_le_length (le_of_eq h.symm)
    constructor
    · unfold ll_forward_kill_line
      rw [if_pos hb]
    · unfold ll_forward_kill_word
      rw [if_pos hb]
  · intro h
    constructor
    · unfold ll_backward_kill_line
      rw [if_pos h]
    · unfold ll_backward_kill_word
      rw [if_pos h]

theorem C9_witness :
    ll_forward_kill_line (readInit [] 10) = (0, readInit [] 10) ∧
    ll_forward_kill_word (readInit [] 10) = (0, readInit [] 10) ∧
    ll_backward_kill_line (readInit [] 10) = (0, readInit [] 10) ∧
    ll_backward_kill_word (readInit [] 10) = (0, readInit [] 10) := by
  have h := C9_empty_kills (readInit [] 10)
  exact ⟨(h.1 (by decide)).1, (h.1 (by decide)).2,
         (h.2 (by decide)).1, (h.2 (by decide)).2⟩

/-- C10: `ll_yank` with an empty clipboard returns 0 and leaves the whole
editor state unchanged — in particular it does not pop, so a viewed
history entry stays in view with `focus` untouched. -/
theorem C10_yank_empty (s : LLState) (h : s.clipboard = []) :
    ll_yank s = (0, s) := by
  unfold ll_yank
  rw [if_neg (by rw [h]; simp)]

theorem C10_witness :
    ll_yank
        { buffer := [], clipboard := [], cursor := 1, fmt_cursor := 0,
          fmt_len := 0, focus := 0, viewing := some 0, history := [[98]],
          histMax := 10, lastCommand := none }
      = (0, { buffer := [], clipboard := [], cursor := 1, fmt_cursor := 0,
              fmt_len := 0, focus := 0, viewing := some 0, history := [[98]],
              histMax := 10, lastCommand := none }) :=
  C10_yank_empty _ (by decide)

theorem fsmFeed_inner {bs : List (List Nat × LLCmd)} {p : List Nat} {b : Nat}
    {p2 : List Nat} (h : fsmFeed bs p b = (FeedRes.fInner, p2)) :
    fsmHasChildren bs (p ++ [b]) = true ∧ p2 = p ++ [b] := by
  unfold fsmFeed at h
  dsimp only at h
  split at h
  · rename_i hc
    injection h with h1 h2
    exact ⟨hc, h2.symm⟩
  · split at h
    · injection h with h1 h2
      exact absurd h1 (by simp)
    · injection h with h1 h2
      exact absurd h1 (by simp)

theorem ansi_children_len {q : List Nat}
    (h : fsmHasChildren LL_ANSI_KEY_BINDINGS q = true) : q.length ≤ 3 := by
  unfold fsmHasChildren at h
  rw [List.any_eq_true] at h
  obtain ⟨x, hx, hpp⟩ := h
  unfold properPrefix at hpp
  rw [Bool.and_eq_true] at hpp
  have hlt : q.length < x.1.length := of_decide_eq_true hpp.2
  have hx4 : x.1.length ≤ 4 := by
    have hall : ∀ y ∈ LL_ANSI_KEY_BINDINGS, y.1.length ≤ 4 := by decide
    exact hall x hx
  omega

/-- C8: with the default table `LL_ANSI_KEY_BINDINGS` installed, every
all-INNER run of the FSM from the root has length at most 3 (its node is a
proper prefix of some binding, and the longest binding is 4 bytes), so
`handle_character`'s accumulation loop executes at most 4 iterations per
key sequence and only ever writes `buf[0] .. buf[3]` of its 8-byte window:
the write index never reaches 8. -/
theorem C8_fsm_window_bound (input : List Nat)
    (h : feedsInner LL_ANSI_KEY_BINDINGS [] input = true) : input.length ≤ 3 := by
  suffices hgen : ∀ (inp2 p : List Nat),
      feedsInner LL_ANSI_KEY_BINDINGS p inp2 = true →
      inp2 = [] ∨ p.length + inp2.length ≤ 3 by
    rcases hgen input [] h with h1 | h1
    · rw [h1]
      simp
    · simpa using h1
  intro inp2
  induction inp2 with
  | nil =>
    intro p h2
    left
    rfl
  | cons b rest ih =>
    intro p h2
    right
    unfold feedsInner at h2
    rcases hF : fsmFeed LL_ANSI_KEY_BINDINGS p b with ⟨res, p2⟩
    rw [hF] at h2
    cases res with
    | fInner =>
      dsimp only at h2
      obtain ⟨hc, hp2⟩ := fsmFeed_inner hF
      have hlen := ansi_children_len hc
      rw [List.length_append, List.length_singleton] at hlen
      rcases ih p2 h2 with h3 | h3
      · subst h3
        simp only [List.length_cons, List.length_nil]
        omega
      · rw [hp2, List.length_append, List.length_singleton] at h3
        simp only [List.length_cons]
        omega
    | fFinal c =>
      simp at h2
    | fNone =>
      simp at h2

theorem C8_witness :
    feedsInner LL_ANSI_KEY_BINDINGS [] [27, 91] = true ∧
    ([27, 91] : List Nat).length ≤ 3 :=
  ⟨by decide, C8_fsm_window_bound [27, 91] (by decide)⟩

theorem C2_witness :
    InvC { buffer := [195, 169], clipboard := [], cursor := 0, fmt_cursor := 0,
           fmt_len := 0, focus := 0, viewing := none, history := [],
           histMax := 10, lastCommand := none } :=
  C2_cursor_invariant LLCmd.delete_char 0
    { buffer := [104, 195, 169], clipboard := [], cursor := 0, fmt_cursor := 0,
      fmt_len := 0, focus := 0, viewing := none, history := [],
      histMax := 10, lastCommand := none }
    ⟨by simp [LLState.current, wfUtf8, show encLen 104 = 1 from by decide,
        show encLen 195 = 2 from by decide, show isCont 169 = true from by decide],
      by decide⟩
    (by unfold InvC; decide) [] 0
    { buffer := [195, 169], clipboard := [], cursor := 0, fmt_cursor := 0,
      fmt_len := 0, focus := 0, viewing := none, history := [],
      histMax := 10, lastCommand := none }
    (by decide)

/-- C2 counterexample: from a fresh read, insert the literal bytes `a`
and `0x80` (the FSM NONE fallback inserts unbound bytes verbatim), go to
the beginning of the line, and run delete-char.  The command returns 0 and
leaves the cursor at offset 0 of the line `[0x80]` — strictly inside the
line and on a UTF-8 continuation byte — refuting the unconditional
invariant claim. -/
theorem C2_counterexample :
    exec LLCmd.delete_char 0
        (ll_beginning_of_line (insert_str (insert_str (readInit [] 10) [97]) [128])).2
      = ([], some (0,
          { buffer := [128], clipboard := [], cursor := 0, fmt_cursor := 0,
            fmt_len := 0, focus := 0, viewing := none, history := [],
            histMax := 10, lastCommand := none })) ∧
    ¬ InvC { buffer := [128], clipboard := [], cursor := 0, fmt_cursor := 0,
             fmt_len := 0, focus := 0, viewing := none, history := [],
             histMax := 10, lastCommand := none } := by
  constructor
  · decide
  · unfold InvC
    decide

theorem C6_witness :
    handleFinal LLCmd.backward_char 0
        { buffer := [97], clipboard := [], cursor := 0, fmt_cursor := 0,
          fmt_len := 0, focus := 0, viewing := none, history := [],
          histMax := 10, lastCommand := none }
      = ([7], some (0,
          { buffer := [97], clipboard := [], cursor := 0, fmt_cursor := 0,
            fmt_len := 0, focus := 0, viewing := none, history := [],
            histMax := 10, lastCommand := some LLCmd.backward_char })) :=
  C6_refusal_bel_frame LLCmd.backward_char 0
    { buffer := [97], clipboard := [], cursor := 0, fmt_cursor := 0,
      fmt_len := 0, focus := 0, viewing := none, history := [],
      histMax := 10, lastCommand := none }
    ⟨by simp [LLState.current, wfUtf8, show encLen 97 = 1 from by decide],
      by decide⟩
    (by decide) (by decide) [] (-1)
    { buffer := [97], clipboard := [], cursor := 0, fmt_cursor := 0,
      fmt_len := 0, focus := 0, viewing := none, history := [],
      histMax := 10, lastCommand := none }
    (by decide) (by decide)

/-- C6 counterexample: after inserting the literal byte `0x00` (reachable:
an unbound byte is inserted verbatim by the FSM NONE fallback),
`ll_backward_delete_char` moves the cursor from 1 to 0, then its
delete-char half refuses on the NUL byte: the command returns a negative
value and BEL is emitted, but the editor state has changed (the cursor
moved), refuting "state unchanged" as stated. -/
theorem C6_counterexample :
    exec LLCmd.backward_delete_char 0 (insert_str (readInit [] 10) [0])
      = ([], some (-1,
          { buffer := [0], clipboard := [], cursor := 0, fmt_cursor := 0,
            fmt_len := 0, focus := 0, viewing := none, history := [],
            histMax := 10, lastCommand := none })) ∧
    insert_str (readInit [] 10) [0]
      ≠ { buffer := [0], clipboard := [], cursor := 0, fmt_cursor := 0,
          fmt_len := 0, focus := 0, viewing := none, history := [],
          histMax := 10, lastCommand := none } := by
  constructor
  · simp [exec, ll_backward_delete_char, ll_backward_char, ll_delete_char,
      moveBack, byteAt, isCont, pop_line, insert_str, listInsert, readInit,
      LLState.current]
  · decide
